import Mathlib

/-!
Verification of the BSTvAVL AVL-tree component (`src/BSTvAVL/AVLTree.h`).

The repository ships the class declaration with documented signatures; the
algorithm bodies are described in the specification (§3, §4.1–§4.4).  The
definitions below embed the data model from the header and model each
operation from the spec, keeping the header's names.  Elements are
key/value pairs ordered by key, matching the spec's "overwrites that
node's stored value" update semantics for duplicate keys.
-/

namespace BSTvAVL

/-- The exception class from `AVLTree.h` (lines 20–43): it stores the
detail message passed to the constructor and nothing else. -/
structure AVLTreeException where
  message : String
deriving DecidableEq, Repr

/-- `what()` returns the stored message (`AVLTree.h` lines 39–42). -/
def AVLTreeException.what (e : AVLTreeException) : String := e.message

/-- The per-node balance tag (`AVLTree.h` line 51):
`typedef enum _BalancedFactor { LH = -1, EH, RH } BalancedFactor;`. -/
inductive BalancedFactor where
  | LH : BalancedFactor
  | EH : BalancedFactor
  | RH : BalancedFactor
deriving DecidableEq, Repr

/-- The numeric value of each enumerator in the C++ enum. -/
def BalancedFactor.enumValue : BalancedFactor → Int
  | .LH => -1
  | .EH => 0
  | .RH => 1

/-- A stored element: a key (by which the element type's total order
compares) together with a satellite value.  The header's generic `E` with
its total order is instantiated this way so that "overwrite the stored
value" is observable. -/
structure Entry where
  key : Int
  val : Int
deriving DecidableEq, Repr

/-- The node structure (`AVLTree.h` lines 53–79): data, left child, right
child and a balance tag; `nil` is the null pointer. -/
inductive Tree where
  | nil : Tree
  | node (left : Tree) (data : Entry) (right : Tree) (bal : BalancedFactor) : Tree
deriving DecidableEq, Repr

/-- Modelled from the spec: "height of a null subtree is defined as -1 so
a leaf has height 0" (§4.4); the private `height(Node*)` of `AVLTree.h`
lines 157–163. -/
def heightN : Tree → Int
  | .nil => -1
  | .node l _ r _ => 1 + max (heightN l) (heightN r)

/-- Number of nodes of a subtree ("the number of reachable nodes", §3). -/
def sizeT : Tree → Nat
  | .nil => 0
  | .node l _ r _ => 1 + sizeT l + sizeT r

/-- In-order element sequence: "in-order (left, self, right) recursive
visitation" (§4.4), the private `traverse` of `AVLTree.h` lines 126–131. -/
def inorder : Tree → List Entry
  | .nil => []
  | .node l d r _ => inorder l ++ d :: inorder r

/-- The in-order key sequence of a subtree. -/
def keys (t : Tree) : List Int := (inorder t).map Entry.key

/-- Modelled from the spec: `rotateLeft` (§4.2) — "promotes `node.right`
to be the new subtree root; `node` becomes the new root's left child; the
new root's former left subtree becomes `node`'s right child"; balance tags
are left for the caller to set (`AVLTree.h` lines 112–117). -/
def rotateLeft : Tree → Tree
  | .node l d (.node rl rd rr rb) b => .node (.node l d rl b) rd rr rb
  | t => t

/-- Modelled from the spec: `rotateRight` (§4.2), the mirror image
(`AVLTree.h` lines 119–124). -/
def rotateRight : Tree → Tree
  | .node (.node ll ld lr lb) d r b => .node ll ld (.node lr d r b) lb
  | t => t

/-- Modelled from the spec: `leftBalance` (§4.2, `AVLTree.h` lines
97–103), invoked by insertion when a node's left subtree grew while the
node was already left-heavy.  Single right rotation when the left child is
LH (tags of the two repositioned nodes become balanced), double rotation
when the left child is RH (tags of all three nodes recomputed from the
pre-rotation balance factors); `taller` is reset to false. -/
def leftBalance : Tree → Tree × Bool
  | .node (.node ll ld lr lb) d r b =>
    match lb with
    | .LH => (rotateRight (.node (.node ll ld lr .EH) d r .EH), false)
    | .EH => (rotateRight (.node (.node ll ld lr .RH) d r .LH), false)
    | .RH =>
      match lr with
      | .node lrl lrd lrr lrb =>
        match lrb with
        | .LH =>
          (rotateRight (.node (rotateLeft (.node ll ld (.node lrl lrd lrr .EH) .EH)) d r .RH),
            false)
        | .EH =>
          (rotateRight (.node (rotateLeft (.node ll ld (.node lrl lrd lrr .EH) .EH)) d r .EH),
            false)
        | .RH =>
          (rotateRight (.node (rotateLeft (.node ll ld (.node lrl lrd lrr .EH) .LH)) d r .EH),
            false)
      | .nil => (.node (.node ll ld lr lb) d r b, false)
  | t => (t, false)

/-- Modelled from the spec: `rightBalance` (§4.2, `AVLTree.h` lines
105–111), the mirror of `leftBalance` for right-side growth. -/
def rightBalance : Tree → Tree × Bool
  | .node l d (.node rl rd rr rb) b =>
    match rb with
    | .RH => (rotateLeft (.node l d (.node rl rd rr .EH) .EH), false)
    | .EH => (rotateLeft (.node l d (.node rl rd rr .LH) .RH), false)
    | .LH =>
      match rl with
      | .node rll rld rlr rlb =>
        match rlb with
        | .RH =>
          (rotateLeft (.node l d (rotateRight (.node (.node rll rld rlr .EH) rd rr .EH)) .LH),
            false)
        | .EH =>
          (rotateLeft (.node l d (rotateRight (.node (.node rll rld rlr .EH) rd rr .EH)) .EH),
            false)
        | .LH =>
          (rotateLeft (.node l d (rotateRight (.node (.node rll rld rlr .EH) rd rr .RH)) .EH),
            false)
      | .nil => (.node l d (.node rl rd rr rb) b, false)
  | t => (t, false)

/-- Modelled from the spec: the private recursive `insert` (§4.1,
`AVLTree.h` lines 86–95).  Returns the new subtree root together with the
`taller` flag.  A null subtree becomes a fresh balanced leaf (taller);
an equal key overwrites the stored value in place (not taller); otherwise
the insertion descends and, when the subtree grew, the node's tag is
updated or the appropriate balance procedure is invoked. -/
def insertAux : Tree → Entry → Tree × Bool
  | .nil, x => (.node .nil x .nil .EH, true)
  | .node l d r b, x =>
    if x.key = d.key then (.node l x r b, false)
    else if x.key < d.key then
      match insertAux l x with
      | (l', taller) =>
        if taller then
          match b with
          | .LH => leftBalance (.node l' d r .LH)
          | .EH => (.node l' d r .LH, true)
          | .RH => (.node l' d r .EH, false)
        else (.node l' d r b, false)
    else
      match insertAux r x with
      | (r', taller) =>
        if taller then
          match b with
          | .RH => rightBalance (.node l d r' .RH)
          | .EH => (.node l d r' .RH, true)
          | .LH => (.node l d r' .EH, false)
        else (.node l d r' b, false)

/-- Modelled from the spec: `deleteRightBalance` (§4.3, `AVLTree.h` lines
142–148), invoked when a node's left subtree became shorter.  A LeftHeavy
node becomes balanced (still shorter); a Balanced node becomes RightHeavy
and absorbs the height change; a RightHeavy node is rotated left (single
rotation when the right child is RH or EH — the EH sibling keeps the
overall height, so `shorter` becomes false — and a double rotation when
the right child is LH, recomputing all three tags). -/
def deleteRightBalance : Tree → Tree × Bool
  | .node l d r b =>
    match b with
    | .LH => (.node l d r .EH, true)
    | .EH => (.node l d r .RH, false)
    | .RH =>
      match r with
      | .node rl rd rr rb =>
        match rb with
        | .RH => (rotateLeft (.node l d (.node rl rd rr .EH) .EH), true)
        | .EH => (rotateLeft (.node l d (.node rl rd rr .LH) .RH), false)
        | .LH =>
          match rl with
          | .node rll rld rlr rlb =>
            match rlb with
            | .LH =>
              (rotateLeft (.node l d (rotateRight (.node (.node rll rld rlr .EH) rd rr .RH)) .EH),
                true)
            | .EH =>
              (rotateLeft (.node l d (rotateRight (.node (.node rll rld rlr .EH) rd rr .EH)) .EH),
                true)
            | .RH =>
              (rotateLeft (.node l d (rotateRight (.node (.node rll rld rlr .EH) rd rr .EH)) .LH),
                true)
          | .nil => (.node l d r b, true)
      | .nil => (.node l d r b, true)
  | t => (t, true)

/-- Modelled from the spec: `deleteLeftBalance` (§4.3, `AVLTree.h` lines
149–155), the mirror of `deleteRightBalance`, invoked when a node's right
subtree became shorter. -/
def deleteLeftBalance : Tree → Tree × Bool
  | .node l d r b =>
    match b with
    | .RH => (.node l d r .EH, true)
    | .EH => (.node l d r .LH, false)
    | .LH =>
      match l with
      | .node ll ld lr lb =>
        match lb with
        | .LH => (rotateRight (.node (.node ll ld lr .EH) d r .EH), true)
        | .EH => (rotateRight (.node (.node ll ld lr .RH) d r .LH), false)
        | .RH =>
          match lr with
          | .node lrl lrd lrr lrb =>
            match lrb with
            | .RH =>
              (rotateRight (.node (rotateLeft (.node ll ld (.node lrl lrd lrr .EH) .LH)) d r .EH),
                true)
            | .EH =>
              (rotateRight (.node (rotateLeft (.node ll ld (.node lrl lrd lrr .EH) .EH)) d r .EH),
                true)
            | .LH =>
              (rotateRight (.node (rotateLeft (.node ll ld (.node lrl lrd lrr .EH) .EH)) d r .RH),
                true)
          | .nil => (.node l d r b, true)
      | .nil => (.node l d r b, true)
  | t => (t, true)

/-- The rightmost entry of a subtree: the in-order predecessor used when
deleting a node with two children (§4.3, glossary).  The `nil` case is
never reached by the deletion engine. -/
def maxEntry : Tree → Entry
  | .nil => ⟨0, 0⟩
  | .node _ d .nil _ => d
  | .node _ _ (.node rl rd rr rb) _ => maxEntry (.node rl rd rr rb)

/-- Modelled from the spec: the private recursive `remove` (§4.3,
`AVLTree.h` lines 133–141).  Returns the new subtree root, the `shorter`
flag and the `success` flag.  A missing key is reported via
`success = false`; a node with at most one child is spliced out; a node
with two children receives its in-order predecessor's data, after which
the predecessor's key is removed from the left subtree.  Whenever a
subtree became shorter the matching delete-balance procedure runs. -/
def removeAux : Tree → Int → Tree × Bool × Bool
  | .nil, _ => (.nil, false, false)
  | .node l d r b, k =>
    if k < d.key then
      let q := removeAux l k
      if q.2.1 then
        let p := deleteRightBalance (.node q.1 d r b)
        (p.1, p.2, q.2.2)
      else (.node q.1 d r b, false, q.2.2)
    else if d.key < k then
      let q := removeAux r k
      if q.2.1 then
        let p := deleteLeftBalance (.node l d q.1 b)
        (p.1, p.2, q.2.2)
      else (.node l d q.1 b, false, q.2.2)
    else
      match l, r with
      | .nil, _ => (r, true, true)
      | .node ll ld lr lb, .nil => (.node ll ld lr lb, true, true)
      | .node ll ld lr lb, .node _ _ _ _ =>
        let q := removeAux (.node ll ld lr lb) (maxEntry (.node ll ld lr lb)).key
        if q.2.1 then
          let p := deleteRightBalance (.node q.1 (maxEntry (.node ll ld lr lb)) r b)
          (p.1, p.2, q.2.2)
        else (.node q.1 (maxEntry (.node ll ld lr lb)) r b, false, q.2.2)

/-- Modelled from the spec: the search walk shared by `inTree` (§4.4,
`AVLTree.h` lines 195–200): standard BST comparison descent. -/
def memberT : Tree → Int → Bool
  | .nil, _ => false
  | .node l d r _, k =>
    if k = d.key then true
    else if k < d.key then memberT l k
    else memberT r k

/-- Modelled from the spec: the search walk of `retrieve` (§4.4,
`AVLTree.h` lines 208–214): on success the stored element, otherwise the
NotFound error. -/
def retrieveT : Tree → Int → Except AVLTreeException Entry
  | .nil, _ => .error ⟨"AVLTreeException: No such element in this tree"⟩
  | .node l d r _, k =>
    if k = d.key then .ok d
    else if k < d.key then retrieveT l k
    else retrieveT r k

/-- Modelled from the spec: the counting walk of `depth` (§4.4,
`AVLTree.h` lines 228–236): walks from the root counting edges; finding
the key returns the count, falling off the tree returns `-1 - d` where
`d` is the number of comparisons made. -/
def depthAux : Tree → Int → Int → Int
  | .nil, _, d => -1 - d
  | .node l e r _, k, d =>
    if k = e.key then d
    else if k < e.key then depthAux l k (d + 1)
    else depthAux r k (d + 1)

/-- The whole tree object (`AVLTree.h` lines 164–171): the root reference
and the node count. -/
structure AVLTree where
  root : Tree
  count : Int
deriving DecidableEq, Repr

/-- The empty tree built by the constructor (`AVLTree.h` lines 173–176). -/
def AVLTree.empty : AVLTree := ⟨.nil, 0⟩

/-- `isEmpty` (`AVLTree.h` lines 183–187). -/
def AVLTree.isEmpty (a : AVLTree) : Bool := a.root == Tree.nil

/-- Modelled from the spec: the public `insert` (§4.1, `AVLTree.h` lines
189–193): delegates to the recursive insertion; the count grows exactly
when no node with an equal key existed (update semantics otherwise). -/
def AVLTree.insert (a : AVLTree) (x : Entry) : AVLTree :=
  ⟨(insertAux a.root x).1, if memberT a.root x.key then a.count else a.count + 1⟩

/-- `inTree` (`AVLTree.h` lines 195–200). -/
def AVLTree.inTree (a : AVLTree) (x : Entry) : Bool := memberT a.root x.key

/-- Modelled from the spec: the public `remove` (§4.3, `AVLTree.h` lines
202–206): delegates to the recursive removal and decrements the count on
success; the not-found case is swallowed silently. -/
def AVLTree.remove (a : AVLTree) (x : Entry) : AVLTree :=
  ⟨(removeAux a.root x.key).1,
    if (removeAux a.root x.key).2.2 then a.count - 1 else a.count⟩

/-- `retrieve` (`AVLTree.h` lines 208–214). -/
def AVLTree.retrieve (a : AVLTree) (x : Entry) : Except AVLTreeException Entry :=
  retrieveT a.root x.key

/-- The public in-order `traverse` (`AVLTree.h` lines 216–221), shallowly
embedded as the list of elements in visitation order. -/
def AVLTree.traverse (a : AVLTree) : List Entry := inorder a.root

/-- `size` (`AVLTree.h` lines 223–227): returns the count. -/
def AVLTree.size (a : AVLTree) : Int := a.count

/-- `depth` (`AVLTree.h` lines 228–236). -/
def AVLTree.depth (a : AVLTree) (x : Entry) : Int := depthAux a.root x.key 0

/-- The public `height` (`AVLTree.h` lines 237–241): height of the whole
tree. -/
def AVLTree.height (a : AVLTree) : Int := heightN a.root

/-- The AVL invariant checker: at every node the balance tag is the exact
encoding of `height(left) − height(right)` — `LH` for `+1`, `EH` for `0`,
`RH` for `−1` (§3, glossary). -/
def avlCheck : Tree → Bool
  | .nil => true
  | .node l _ r b =>
    avlCheck l && avlCheck r &&
    ((b == .LH && heightN l == heightN r + 1) ||
     (b == .EH && heightN l == heightN r) ||
     (b == .RH && heightN l + 1 == heightN r))

/-- The height-balance condition alone: at every node
`|height(left) − height(right)| ≤ 1` (§3, §8). -/
def heightBalanced : Tree → Bool
  | .nil => true
  | .node l _ r _ =>
    heightBalanced l && heightBalanced r &&
    decide ((heightN l - heightN r).natAbs ≤ 1)

/-- The AVL shape invariant as an inductive predicate indexed by the
number of levels (`Avl t h` says `t` is a correctly tagged AVL tree with
`heightN t = h - 1`).  This is the workhorse for the preservation
proofs. -/
inductive Avl : Tree → Nat → Prop where
  | nil : Avl .nil 0
  | bal {l r : Tree} {h : Nat} (d : Entry) :
      Avl l h → Avl r h → Avl (.node l d r .EH) (h + 1)
  | lh {l r : Tree} {h : Nat} (d : Entry) :
      Avl l (h + 1) → Avl r h → Avl (.node l d r .LH) (h + 2)
  | rh {l r : Tree} {h : Nat} (d : Entry) :
      Avl l h → Avl r (h + 1) → Avl (.node l d r .RH) (h + 2)

/-- One public mutating operation (§2): insert or remove. -/
inductive Op where
  | insert (x : Entry) : Op
  | remove (x : Entry) : Op
deriving DecidableEq, Repr

/-- Apply one public operation to a tree object. -/
def applyOp (a : AVLTree) : Op → AVLTree
  | .insert x => a.insert x
  | .remove x => a.remove x

/-- The tree object reached from the freshly constructed empty tree by a
finite sequence of insert and remove operations (§8). -/
def runOps (ops : List Op) : AVLTree := ops.foldl applyOp AVLTree.empty

/-- The balance tag at the root of a subtree (balanced for null). -/
def rootBal : Tree → BalancedFactor
  | .nil => .EH
  | .node _ _ _ b => b

/-- Sorted-list insertion with overwrite on an equal key: the list-level
specification of the insertion engine (§4.1). -/
def insList (x : Entry) : List Entry → List Entry
  | [] => [x]
  | e :: es =>
    if x.key = e.key then x :: es
    else if x.key < e.key then x :: e :: es
    else e :: insList x es

/-- Removal of the first entry with the given key: the list-level
specification of the deletion engine (§4.3). -/
def delList (k : Int) : List Entry → List Entry
  | [] => []
  | e :: es => if k = e.key then es else e :: delList k es

/-- The representation invariant of a reachable tree object: the balance
tags are the exact height-difference encoding, the in-order keys are
strictly increasing, and the stored count equals the number of reachable
nodes (§3). -/
def Inv (a : AVLTree) : Prop :=
  avlCheck a.root = true ∧ (keys a.root).Pairwise (· < ·) ∧
    a.count = (sizeT a.root : Int)

instance (a : AVLTree) : Decidable (Inv a) :=
  decidable_of_iff
    (avlCheck a.root = true ∧ (keys a.root).Pairwise (· < ·) ∧
      a.count = (sizeT a.root : Int)) Iff.rfl


/-- Entries of a subtree at edge-depth `k`, left to right (level `k`). -/
def levelEntries : Tree → Nat → List Entry
  | .nil, _ => []
  | .node _ d _ _, 0 => [d]
  | .node l _ r _, k + 1 => levelEntries l k ++ levelEntries r k

/-- The number of levels of a subtree (its height plus one). -/
def levelCount : Tree → Nat
  | .nil => 0
  | .node l _ r _ => 1 + max (levelCount l) (levelCount r)

/-- The level-order listing of a tree: level 0, then level 1, and so on. -/
def levelsList (t : Tree) : List (List Entry) :=
  (List.range (levelCount t)).map (levelEntries t)

/-- Total node count of a queue of pending subtrees. -/
def sizeQ (q : List Tree) : Nat := (q.map sizeT).sum

/-- Modelled from the spec: `levelTraverse` (§4.4, `AVLTree.h` lines
243–248): breadth-first visitation using an explicit FIFO queue of
pending subtree roots; a popped null is skipped, a popped node is visited
and its two subtrees are enqueued at the back. -/
def bfs : List Tree → List Entry
  | [] => []
  | .nil :: q => bfs q
  | .node l d r _ :: q => d :: bfs (q ++ [l, r])
termination_by q => 2 * sizeQ q + q.length
decreasing_by
  · simp [sizeQ, sizeT]
  · simp [sizeQ, sizeT, List.map_append, List.sum_append]
    omega

/-- The public `levelTraverse` (`AVLTree.h` lines 243–248), shallowly
embedded as the list of elements in visitation order, starting from the
queue holding the root. -/
def AVLTree.levelTraverse (a : AVLTree) : List Entry := bfs [a.root]

/-- The root entries of the non-null trees of a queue, in order. -/
def rootsE : List Tree → List Entry
  | [] => []
  | .nil :: q => rootsE q
  | .node _ d _ _ :: q => d :: rootsE q

/-- The child subtrees of one tree. -/
def childrenOf : Tree → List Tree
  | .nil => []
  | .node l _ r _ => [l, r]

/-- The child subtrees of every tree of a queue, in order. -/
def childrenF : List Tree → List Tree
  | [] => []
  | t :: q => childrenOf t ++ childrenF q

/-- The structural location of a key: `some d` when an entry carrying the
key sits at edge-depth `d`, `none` when no node carries the key. -/
def depthOf : Tree → Int → Option Nat
  | .nil, _ => none
  | .node l e r _, k =>
    if k = e.key then some 0
    else
      match depthOf l k with
      | some d => some (d + 1)
      | none =>
        match depthOf r k with
        | some d => some (d + 1)
        | none => none

/-- The number of comparisons a search for an absent key makes before
falling off the tree: the edge-depth of the null slot where the key would
be inserted (§4.4). -/
def insDepth : Tree → Int → Nat
  | .nil, _ => 0
  | .node l e r _, k => 1 + (if k < e.key then insDepth l k else insDepth r k)

/-- Every key named by an insert operation of a sequence, in order. -/
def insertedKeys : List Op → List Int
  | [] => []
  | .insert x :: ops => x.key :: insertedKeys ops
  | .remove _ :: ops => insertedKeys ops

/-- The number of remove operations that succeed (find their key) when
the sequence runs from the given starting tree. -/
def succRemovals : List Op → AVLTree → Nat
  | [], _ => 0
  | .insert x :: ops, a => succRemovals ops (a.insert x)
  | .remove x :: ops, a =>
    (if (removeAux a.root x.key).2.2 then 1 else 0) + succRemovals ops (a.remove x)

/-- The number of insert operations that create a new node (their key
absent at the time) when the sequence runs from the given tree. -/
def newInserts : List Op → AVLTree → Nat
  | [], _ => 0
  | .insert x :: ops, a =>
    (if memberT a.root x.key then 0 else 1) + newInserts ops (a.insert x)
  | .remove x :: ops, a => newInserts ops (a.remove x)


/-- Whether a tree occurs as a subtree (a reachable node) of another. -/
def occursB (s : Tree) : Tree → Bool
  | .nil => s == Tree.nil
  | .node l d r b => s == Tree.node l d r b || occursB s l || occursB s r

theorem heightN_of_avl {t : Tree} {h : Nat} (ha : Avl t h) :
    heightN t = (h : Int) - 1 := by
  induction ha with
  | nil => simp [heightN]
  | bal d _ _ ihl ihr => simp [heightN, ihl, ihr]
  | lh d _ _ ihl ihr =>
      simp only [heightN, ihl, ihr]
      push_cast
      rw [max_eq_left (by omega)]
      omega
  | rh d _ _ ihl ihr =>
      simp only [heightN, ihl, ihr]
      push_cast
      rw [max_eq_right (by omega)]
      omega

theorem avlCheck_of_avl {t : Tree} {h : Nat} (ha : Avl t h) :
    avlCheck t = true := by
  induction ha with
  | nil => rfl
  | bal d hl hr ihl ihr =>
      simp [avlCheck, ihl, ihr, heightN_of_avl hl, heightN_of_avl hr]
  | lh d hl hr ihl ihr =>
      simp [avlCheck, ihl, ihr, heightN_of_avl hl, heightN_of_avl hr]
  | rh d hl hr ihl ihr =>
      simp [avlCheck, ihl, ihr, heightN_of_avl hl, heightN_of_avl hr]

theorem avl_of_avlCheck : ∀ {t : Tree}, avlCheck t = true → ∃ h, Avl t h := by
  intro t
  induction t with
  | nil => exact fun _ => ⟨0, Avl.nil⟩
  | node l d r b ihl ihr =>
      intro hc
      simp only [avlCheck, Bool.and_eq_true, Bool.or_eq_true, beq_iff_eq] at hc
      obtain ⟨⟨hcl, hcr⟩, htag⟩ := hc
      obtain ⟨hl, hal⟩ := ihl hcl
      obtain ⟨hr, har⟩ := ihr hcr
      have el := heightN_of_avl hal
      have er := heightN_of_avl har
      rcases htag with (⟨hb, he⟩ | ⟨hb, he⟩) | ⟨hb, he⟩
      · subst hb
        have : hl = hr + 1 := by omega
        subst this
        exact ⟨hr + 2, Avl.lh d hal har⟩
      · subst hb
        have : hl = hr := by omega
        subst this
        exact ⟨hl + 1, Avl.bal d hal har⟩
      · subst hb
        have : hr = hl + 1 := by omega
        subst this
        exact ⟨hl + 2, Avl.rh d hal har⟩

theorem heightBalanced_of_avlCheck : ∀ {t : Tree}, avlCheck t = true →
    heightBalanced t = true := by
  intro t
  induction t with
  | nil => exact fun _ => rfl
  | node l d r b ihl ihr =>
      intro hc
      simp only [avlCheck, Bool.and_eq_true, Bool.or_eq_true, beq_iff_eq] at hc
      obtain ⟨⟨hcl, hcr⟩, htag⟩ := hc
      simp only [heightBalanced, Bool.and_eq_true, decide_eq_true_eq, ihl hcl, ihr hcr,
        true_and]
      rcases htag with (⟨_, he⟩ | ⟨_, he⟩) | ⟨_, he⟩ <;> omega

theorem leftBalance_avl {l r : Tree} {d : Entry} {b : BalancedFactor} {h : Nat}
    (hl : Avl l (h + 2)) (hr : Avl r h) (hb : rootBal l ≠ .EH) :
    Avl (leftBalance (Tree.node l d r b)).1 (h + 2) ∧
      (leftBalance (Tree.node l d r b)).2 = false := by
  cases hl with
  | bal ld hll hlr => exact absurd rfl hb
  | lh ld hll hlr =>
      exact ⟨Avl.bal ld hll (Avl.bal d hlr hr), rfl⟩
  | rh ld hll hlr =>
      cases hlr with
      | bal lrd h1 h2 =>
          exact ⟨Avl.bal lrd (Avl.bal ld hll h1) (Avl.bal d h2 hr), rfl⟩
      | lh lrd h1 h2 =>
          exact ⟨Avl.bal lrd (Avl.bal ld hll h1) (Avl.rh d h2 hr), rfl⟩
      | rh lrd h1 h2 =>
          exact ⟨Avl.bal lrd (Avl.lh ld hll h1) (Avl.bal d h2 hr), rfl⟩

theorem rightBalance_avl {l r : Tree} {d : Entry} {b : BalancedFactor} {h : Nat}
    (hl : Avl l h) (hr : Avl r (h + 2)) (hb : rootBal r ≠ .EH) :
    Avl (rightBalance (Tree.node l d r b)).1 (h + 2) ∧
      (rightBalance (Tree.node l d r b)).2 = false := by
  cases hr with
  | bal rd hrl hrr => exact absurd rfl hb
  | rh rd hrl hrr =>
      exact ⟨Avl.bal rd (Avl.bal d hl hrl) hrr, rfl⟩
  | lh rd hrl hrr =>
      cases hrl with
      | bal rld h1 h2 =>
          exact ⟨Avl.bal rld (Avl.bal d hl h1) (Avl.bal rd h2 hrr), rfl⟩
      | lh rld h1 h2 =>
          exact ⟨Avl.bal rld (Avl.bal d hl h1) (Avl.rh rd h2 hrr), rfl⟩
      | rh rld h1 h2 =>
          exact ⟨Avl.bal rld (Avl.lh d hl h1) (Avl.bal rd h2 hrr), rfl⟩

theorem insertAux_avl (x : Entry) : ∀ {t : Tree} {h : Nat}, Avl t h →
    ((insertAux t x).2 = true →
      Avl (insertAux t x).1 (h + 1) ∧ (1 ≤ h → rootBal (insertAux t x).1 ≠ .EH))
  ∧ ((insertAux t x).2 = false → Avl (insertAux t x).1 h) := by
  intro t h ha
  induction ha with
  | nil =>
      exact ⟨fun _ => ⟨Avl.bal x Avl.nil Avl.nil, fun hh => absurd hh (by omega)⟩,
        fun hf => by simp [insertAux] at hf⟩
  | @bal l r h0 d hl hr ihl ihr =>
      by_cases hx : x.key = d.key
      · have h1 : insertAux (Tree.node l d r .EH) x = (Tree.node l x r .EH, false) := by
          simp [insertAux, hx]
        rw [h1]
        exact ⟨fun hk => by simp at hk, fun _ => Avl.bal x hl hr⟩
      · by_cases hlt : x.key < d.key
        · rcases hins : insertAux l x with ⟨l', g⟩
          cases g with
          | false =>
              have h1 : insertAux (Tree.node l d r .EH) x = (Tree.node l' d r .EH, false) := by
                simp [insertAux, hx, hlt, hins]
              rw [h1]
              have hl' : Avl l' h0 := by
                have h2 := ihl.2
                rw [hins] at h2
                exact h2 rfl
              exact ⟨fun hk => by simp at hk, fun _ => Avl.bal d hl' hr⟩
          | true =>
              have h1 : insertAux (Tree.node l d r .EH) x = (Tree.node l' d r .LH, true) := by
                simp [insertAux, hx, hlt, hins]
              rw [h1]
              have hg := ihl.1 (by rw [hins])
              rw [hins] at hg
              exact ⟨fun _ => ⟨Avl.lh d hg.1 hr, fun _ => by simp [rootBal]⟩,
                fun hk => by simp at hk⟩
        · rcases hins : insertAux r x with ⟨r', g⟩
          cases g with
          | false =>
              have h1 : insertAux (Tree.node l d r .EH) x = (Tree.node l d r' .EH, false) := by
                simp [insertAux, hx, hlt, hins]
              rw [h1]
              have hr' : Avl r' h0 := by
                have h2 := ihr.2
                rw [hins] at h2
                exact h2 rfl
              exact ⟨fun hk => by simp at hk, fun _ => Avl.bal d hl hr'⟩
          | true =>
              have h1 : insertAux (Tree.node l d r .EH) x = (Tree.node l d r' .RH, true) := by
                simp [insertAux, hx, hlt, hins]
              rw [h1]
              have hg := ihr.1 (by rw [hins])
              rw [hins] at hg
              exact ⟨fun _ => ⟨Avl.rh d hl hg.1, fun _ => by simp [rootBal]⟩,
                fun hk => by simp at hk⟩
  | @lh l r h0 d hl hr ihl ihr =>
      by_cases hx : x.key = d.key
      · have h1 : insertAux (Tree.node l d r .LH) x = (Tree.node l x r .LH, false) := by
          simp [insertAux, hx]
        rw [h1]
        exact ⟨fun hk => by simp at hk, fun _ => Avl.lh x hl hr⟩
      · by_cases hlt : x.key < d.key
        · rcases hins : insertAux l x with ⟨l', g⟩
          cases g with
          | false =>
              have h1 : insertAux (Tree.node l d r .LH) x = (Tree.node l' d r .LH, false) := by
                simp [insertAux, hx, hlt, hins]
              rw [h1]
              have hl' : Avl l' (h0 + 1) := by
                have h2 := ihl.2
                rw [hins] at h2
                exact h2 rfl
              exact ⟨fun hk => by simp at hk, fun _ => Avl.lh d hl' hr⟩
          | true =>
              have h1 : insertAux (Tree.node l d r .LH) x = leftBalance (Tree.node l' d r .LH) := by
                simp [insertAux, hx, hlt, hins]
              rw [h1]
              have hg := ihl.1 (by rw [hins])
              rw [hins] at hg
              have hl' : Avl l' (h0 + 2) := hg.1
              have hbb : rootBal l' ≠ .EH := hg.2 (by omega)
              obtain ⟨ha', hf'⟩ := leftBalance_avl (d := d) (b := .LH) hl' hr hbb
              exact ⟨fun hk => by simp [hf'] at hk, fun _ => ha'⟩
        · rcases hins : insertAux r x with ⟨r', g⟩
          cases g with
          | false =>
              have h1 : insertAux (Tree.node l d r .LH) x = (Tree.node l d r' .LH, false) := by
                simp [insertAux, hx, hlt, hins]
              rw [h1]
              have hr' : Avl r' h0 := by
                have h2 := ihr.2
                rw [hins] at h2
                exact h2 rfl
              exact ⟨fun hk => by simp at hk, fun _ => Avl.lh d hl hr'⟩
          | true =>
              have h1 : insertAux (Tree.node l d r .LH) x = (Tree.node l d r' .EH, false) := by
                simp [insertAux, hx, hlt, hins]
              rw [h1]
              have hg := ihr.1 (by rw [hins])
              rw [hins] at hg
              exact ⟨fun hk => by simp at hk, fun _ => Avl.bal d hl hg.1⟩
  | @rh l r h0 d hl hr ihl ihr =>
      by_cases hx : x.key = d.key
      · have h1 : insertAux (Tree.node l d r .RH) x = (Tree.node l x r .RH, false) := by
          simp [insertAux, hx]
        rw [h1]
        exact ⟨fun hk => by simp at hk, fun _ => Avl.rh x hl hr⟩
      · by_cases hlt : x.key < d.key
        · rcases hins : insertAux l x with ⟨l', g⟩
          cases g with
          | false =>
              have h1 : insertAux (Tree.node l d r .RH) x = (Tree.node l' d r .RH, false) := by
                simp [insertAux, hx, hlt, hins]
              rw [h1]
              have hl' : Avl l' h0 := by
                have h2 := ihl.2
                rw [hins] at h2
                exact h2 rfl
              exact ⟨fun hk => by simp at hk, fun _ => Avl.rh d hl' hr⟩
          | true =>
              have h1 : insertAux (Tree.node l d r .RH) x = (Tree.node l' d r .EH, false) := by
                simp [insertAux, hx, hlt, hins]
              rw [h1]
              have hg := ihl.1 (by rw [hins])
              rw [hins] at hg
              exact ⟨fun hk => by simp at hk, fun _ => Avl.bal d hg.1 hr⟩
        · rcases hins : insertAux r x with ⟨r', g⟩
          cases g with
          | false =>
              have h1 : insertAux (Tree.node l d r .RH) x = (Tree.node l d r' .RH, false) := by
                simp [insertAux, hx, hlt, hins]
              rw [h1]
              have hr' : Avl r' (h0 + 1) := by
                have h2 := ihr.2
                rw [hins] at h2
                exact h2 rfl
              exact ⟨fun hk => by simp at hk, fun _ => Avl.rh d hl hr'⟩
          | true =>
              have h1 : insertAux (Tree.node l d r .RH) x = rightBalance (Tree.node l d r' .RH) := by
                simp [insertAux, hx, hlt, hins]
              rw [h1]
              have hg := ihr.1 (by rw [hins])
              rw [hins] at hg
              have hr' : Avl r' (h0 + 2) := hg.1
              have hbb : rootBal r' ≠ .EH := hg.2 (by omega)
              obtain ⟨ha', hf'⟩ := rightBalance_avl (d := d) (b := .RH) hl hr' hbb
              exact ⟨fun hk => by simp [hf'] at hk, fun _ => ha'⟩


theorem deleteRightBalance_rh {l r : Tree} {d : Entry} {h : Nat}
    (hl : Avl l h) (hr : Avl r (h + 2)) :
    ((deleteRightBalance (Tree.node l d r .RH)).2 = true →
      Avl (deleteRightBalance (Tree.node l d r .RH)).1 (h + 2))
  ∧ ((deleteRightBalance (Tree.node l d r .RH)).2 = false →
      Avl (deleteRightBalance (Tree.node l d r .RH)).1 (h + 3)) := by
  cases hr with
  | bal rd hrl hrr =>
      exact ⟨fun hk => by simp [deleteRightBalance] at hk,
        fun _ => Avl.lh rd (Avl.rh d hl hrl) hrr⟩
  | rh rd hrl hrr =>
      exact ⟨fun _ => Avl.bal rd (Avl.bal d hl hrl) hrr,
        fun hk => by simp [deleteRightBalance] at hk⟩
  | lh rd hrl hrr =>
      cases hrl with
      | bal rld h1 h2 =>
          exact ⟨fun _ => Avl.bal rld (Avl.bal d hl h1) (Avl.bal rd h2 hrr),
            fun hk => by simp [deleteRightBalance] at hk⟩
      | lh rld h1 h2 =>
          exact ⟨fun _ => Avl.bal rld (Avl.bal d hl h1) (Avl.rh rd h2 hrr),
            fun hk => by simp [deleteRightBalance] at hk⟩
      | rh rld h1 h2 =>
          exact ⟨fun _ => Avl.bal rld (Avl.lh d hl h1) (Avl.bal rd h2 hrr),
            fun hk => by simp [deleteRightBalance] at hk⟩

theorem deleteLeftBalance_lh {l r : Tree} {d : Entry} {h : Nat}
    (hl : Avl l (h + 2)) (hr : Avl r h) :
    ((deleteLeftBalance (Tree.node l d r .LH)).2 = true →
      Avl (deleteLeftBalance (Tree.node l d r .LH)).1 (h + 2))
  ∧ ((deleteLeftBalance (Tree.node l d r .LH)).2 = false →
      Avl (deleteLeftBalance (Tree.node l d r .LH)).1 (h + 3)) := by
  cases hl with
  | bal ld hll hlr =>
      exact ⟨fun hk => by simp [deleteLeftBalance] at hk,
        fun _ => Avl.rh ld hll (Avl.lh d hlr hr)⟩
  | lh ld hll hlr =>
      exact ⟨fun _ => Avl.bal ld hll (Avl.bal d hlr hr),
        fun hk => by simp [deleteLeftBalance] at hk⟩
  | rh ld hll hlr =>
      cases hlr with
      | bal lrd h1 h2 =>
          exact ⟨fun _ => Avl.bal lrd (Avl.bal ld hll h1) (Avl.bal d h2 hr),
            fun hk => by simp [deleteLeftBalance] at hk⟩
      | lh lrd h1 h2 =>
          exact ⟨fun _ => Avl.bal lrd (Avl.bal ld hll h1) (Avl.rh d h2 hr),
            fun hk => by simp [deleteLeftBalance] at hk⟩
      | rh lrd h1 h2 =>
          exact ⟨fun _ => Avl.bal lrd (Avl.lh ld hll h1) (Avl.bal d h2 hr),
            fun hk => by simp [deleteLeftBalance] at hk⟩


theorem removeAux_avl : ∀ {t : Tree} {h : Nat}, Avl t h → ∀ k : Int,
    ((removeAux t k).2.1 = true → ∃ h', h = h' + 1 ∧ Avl (removeAux t k).1 h')
  ∧ ((removeAux t k).2.1 = false → Avl (removeAux t k).1 h) := by
  intro t h ha
  induction ha with
  | nil =>
      intro k
      exact ⟨fun hkk => by rw [removeAux.eq_def] at hkk; simp at hkk, fun _ => Avl.nil⟩
  | @bal l r h0 d hl hr ihl ihr =>
      intro k
      rcases lt_trichotomy k d.key with hlt | heq | hgt
      · rcases hrec : removeAux l k with ⟨l', sh, su⟩
        cases sh with
        | false =>
            have h1 : removeAux (Tree.node l d r .EH) k = (Tree.node l' d r .EH, false, su) := by
              rw [removeAux.eq_def]
              simp [hlt, hrec]
            rw [h1]
            have hl' : Avl l' h0 := by
              have h2 := (ihl k).2
              rw [hrec] at h2
              exact h2 rfl
            exact ⟨fun hkk => by simp at hkk, fun _ => Avl.bal d hl' hr⟩
        | true =>
            have h2 := (ihl k).1
            rw [hrec] at h2
            obtain ⟨h', heq0, hl'⟩ := h2 rfl
            have h1 : removeAux (Tree.node l d r .EH) k = (Tree.node l' d r .RH, false, su) := by
              rw [removeAux.eq_def]
              simp [hlt, hrec, deleteRightBalance]
            rw [h1]
            refine ⟨fun hkk => by simp at hkk, fun _ => ?_⟩
            subst heq0
            exact Avl.rh d hl' hr
      · subst heq
        rcases l with _ | ⟨ll, ld, lr, lb⟩
        · cases hl
          have h1 : removeAux (Tree.node .nil d r .EH) d.key = (r, true, true) := by
            rw [removeAux.eq_def]
            simp
          rw [h1]
          exact ⟨fun _ => ⟨0, rfl, hr⟩, fun hkk => by simp at hkk⟩
        · rcases r with _ | ⟨rl, rd2, rr, rb⟩
          · cases hr
            cases hl
          · rcases hrec : removeAux (Tree.node ll ld lr lb)
                (maxEntry (Tree.node ll ld lr lb)).key with ⟨l', sh, su⟩
            cases sh with
            | false =>
                have h1 : removeAux
                    (Tree.node (Tree.node ll ld lr lb) d (Tree.node rl rd2 rr rb) .EH) d.key
                    = (Tree.node l' (maxEntry (Tree.node ll ld lr lb))
                        (Tree.node rl rd2 rr rb) .EH, false, su) := by
                  rw [removeAux.eq_def]
                  simp [hrec]
                rw [h1]
                have hl' : Avl l' h0 := by
                  have h2 := (ihl (maxEntry (Tree.node ll ld lr lb)).key).2
                  rw [hrec] at h2
                  exact h2 rfl
                exact ⟨fun hkk => by simp at hkk,
                  fun _ => Avl.bal (maxEntry (Tree.node ll ld lr lb)) hl' hr⟩
            | true =>
                have h2 := (ihl (maxEntry (Tree.node ll ld lr lb)).key).1
                rw [hrec] at h2
                obtain ⟨h', heq0, hl'⟩ := h2 rfl
                have h1 : removeAux
                    (Tree.node (Tree.node ll ld lr lb) d (Tree.node rl rd2 rr rb) .EH) d.key
                    = (Tree.node l' (maxEntry (Tree.node ll ld lr lb))
                        (Tree.node rl rd2 rr rb) .RH, false, su) := by
                  rw [removeAux.eq_def]
                  simp [hrec, deleteRightBalance]
                rw [h1]
                refine ⟨fun hkk => by simp at hkk, fun _ => ?_⟩
                subst heq0
                exact Avl.rh (maxEntry (Tree.node ll ld lr lb)) hl' hr
      · rcases hrec : removeAux r k with ⟨r', sh, su⟩
        cases sh with
        | false =>
            have h1 : removeAux (Tree.node l d r .EH) k = (Tree.node l d r' .EH, false, su) := by
              rw [removeAux.eq_def]
              simp [hgt, lt_asymm hgt, hrec]
            rw [h1]
            have hr' : Avl r' h0 := by
              have h2 := (ihr k).2
              rw [hrec] at h2
              exact h2 rfl
            exact ⟨fun hkk => by simp at hkk, fun _ => Avl.bal d hl hr'⟩
        | true =>
            have h2 := (ihr k).1
            rw [hrec] at h2
            obtain ⟨h', heq0, hr'⟩ := h2 rfl
            have h1 : removeAux (Tree.node l d r .EH) k = (Tree.node l d r' .LH, false, su) := by
              rw [removeAux.eq_def]
              simp [hgt, lt_asymm hgt, hrec, deleteLeftBalance]
            rw [h1]
            refine ⟨fun hkk => by simp at hkk, fun _ => ?_⟩
            subst heq0
            exact Avl.lh d hl hr'
  | @lh l r h0 d hl hr ihl ihr =>
      intro k
      rcases lt_trichotomy k d.key with hlt | heq | hgt
      · rcases hrec : removeAux l k with ⟨l', sh, su⟩
        cases sh with
        | false =>
            have h1 : removeAux (Tree.node l d r .LH) k = (Tree.node l' d r .LH, false, su) := by
              rw [removeAux.eq_def]
              simp [hlt, hrec]
            rw [h1]
            have hl' : Avl l' (h0 + 1) := by
              have h2 := (ihl k).2
              rw [hrec] at h2
              exact h2 rfl
            exact ⟨fun hkk => by simp at hkk, fun _ => Avl.lh d hl' hr⟩
        | true =>
            have h2 := (ihl k).1
            rw [hrec] at h2
            obtain ⟨h', heq0, hl'⟩ := h2 rfl
            have hh : h' = h0 := by omega
            subst hh
            have h1 : removeAux (Tree.node l d r .LH) k = (Tree.node l' d r .EH, true, su) := by
              rw [removeAux.eq_def]
              simp [hlt, hrec, deleteRightBalance]
            rw [h1]
            exact ⟨fun _ => ⟨h' + 1, by omega, Avl.bal d hl' hr⟩, fun hkk => by simp at hkk⟩
      · subst heq
        rcases l with _ | ⟨ll, ld, lr, lb⟩
        · cases hl
        · rcases r with _ | ⟨rl, rd2, rr, rb⟩
          · cases hr
            have h1 : removeAux (Tree.node (Tree.node ll ld lr lb) d .nil .LH) d.key
                = (Tree.node ll ld lr lb, true, true) := by
              rw [removeAux.eq_def]
              simp
            rw [h1]
            exact ⟨fun _ => ⟨1, by omega, hl⟩, fun hkk => by simp at hkk⟩
          · rcases hrec : removeAux (Tree.node ll ld lr lb)
                (maxEntry (Tree.node ll ld lr lb)).key with ⟨l', sh, su⟩
            cases sh with
            | false =>
                have h1 : removeAux
                    (Tree.node (Tree.node ll ld lr lb) d (Tree.node rl rd2 rr rb) .LH) d.key
                    = (Tree.node l' (maxEntry (Tree.node ll ld lr lb))
                        (Tree.node rl rd2 rr rb) .LH, false, su) := by
                  rw [removeAux.eq_def]
                  simp [hrec]
                rw [h1]
                have hl' : Avl l' (h0 + 1) := by
                  have h2 := (ihl (maxEntry (Tree.node ll ld lr lb)).key).2
                  rw [hrec] at h2
                  exact h2 rfl
                exact ⟨fun hkk => by simp at hkk,
                  fun _ => Avl.lh (maxEntry (Tree.node ll ld lr lb)) hl' hr⟩
            | true =>
                have h2 := (ihl (maxEntry (Tree.node ll ld lr lb)).key).1
                rw [hrec] at h2
                obtain ⟨h', heq0, hl'⟩ := h2 rfl
                have hh : h' = h0 := by omega
                subst hh
                have h1 : removeAux
                    (Tree.node (Tree.node ll ld lr lb) d (Tree.node rl rd2 rr rb) .LH) d.key
                    = (Tree.node l' (maxEntry (Tree.node ll ld lr lb))
                        (Tree.node rl rd2 rr rb) .EH, true, su) := by
                  rw [removeAux.eq_def]
                  simp [hrec, deleteRightBalance]
                rw [h1]
                exact ⟨fun _ => ⟨h' + 1, by omega,
                    Avl.bal (maxEntry (Tree.node ll ld lr lb)) hl' hr⟩,
                  fun hkk => by simp at hkk⟩
      · rcases hrec : removeAux r k with ⟨r', sh, su⟩
        cases sh with
        | false =>
            have h1 : removeAux (Tree.node l d r .LH) k = (Tree.node l d r' .LH, false, su) := by
              rw [removeAux.eq_def]
              simp [hgt, lt_asymm hgt, hrec]
            rw [h1]
            have hr' : Avl r' h0 := by
              have h2 := (ihr k).2
              rw [hrec] at h2
              exact h2 rfl
            exact ⟨fun hkk => by simp at hkk, fun _ => Avl.lh d hl hr'⟩
        | true =>
            have h2 := (ihr k).1
            rw [hrec] at h2
            obtain ⟨h', heq0, hr'⟩ := h2 rfl
            subst heq0
            rcases hdb : deleteLeftBalance (Tree.node l d r' .LH) with ⟨t', sh'⟩
            have h1 : removeAux (Tree.node l d r .LH) k = (t', sh', su) := by
              rw [removeAux.eq_def]
              simp [hgt, lt_asymm hgt, hrec, hdb]
            rw [h1]
            have hlem := deleteLeftBalance_lh (d := d) hl hr'
            rw [hdb] at hlem
            exact ⟨fun hkk => ⟨h' + 2, by omega, hlem.1 hkk⟩, fun hkk => hlem.2 hkk⟩
  | @rh l r h0 d hl hr ihl ihr =>
      intro k
      rcases lt_trichotomy k d.key with hlt | heq | hgt
      · rcases hrec : removeAux l k with ⟨l', sh, su⟩
        cases sh with
        | false =>
            have h1 : removeAux (Tree.node l d r .RH) k = (Tree.node l' d r .RH, false, su) := by
              rw [removeAux.eq_def]
              simp [hlt, hrec]
            rw [h1]
            have hl' : Avl l' h0 := by
              have h2 := (ihl k).2
              rw [hrec] at h2
              exact h2 rfl
            exact ⟨fun hkk => by simp at hkk, fun _ => Avl.rh d hl' hr⟩
        | true =>
            have h2 := (ihl k).1
            rw [hrec] at h2
            obtain ⟨h', heq0, hl'⟩ := h2 rfl
            subst heq0
            rcases hdb : deleteRightBalance (Tree.node l' d r .RH) with ⟨t', sh'⟩
            have h1 : removeAux (Tree.node l d r .RH) k = (t', sh', su) := by
              rw [removeAux.eq_def]
              simp [hlt, hrec, hdb]
            rw [h1]
            have hlem := deleteRightBalance_rh (d := d) hl' hr
            rw [hdb] at hlem
            exact ⟨fun hkk => ⟨h' + 2, by omega, hlem.1 hkk⟩, fun hkk => hlem.2 hkk⟩
      · subst heq
        rcases l with _ | ⟨ll, ld, lr, lb⟩
        · cases hl
          have h1 : removeAux (Tree.node .nil d r .RH) d.key = (r, true, true) := by
            rw [removeAux.eq_def]
            simp
          rw [h1]
          exact ⟨fun _ => ⟨1, by omega, hr⟩, fun hkk => by simp at hkk⟩
        · rcases r with _ | ⟨rl, rd2, rr, rb⟩
          · cases hr
          · rcases hrec : removeAux (Tree.node ll ld lr lb)
                (maxEntry (Tree.node ll ld lr lb)).key with ⟨l', sh, su⟩
            cases sh with
            | false =>
                have h1 : removeAux
                    (Tree.node (Tree.node ll ld lr lb) d (Tree.node rl rd2 rr rb) .RH) d.key
                    = (Tree.node l' (maxEntry (Tree.node ll ld lr lb))
                        (Tree.node rl rd2 rr rb) .RH, false, su) := by
                  rw [removeAux.eq_def]
                  simp [hrec]
                rw [h1]
                have hl' : Avl l' h0 := by
                  have h2 := (ihl (maxEntry (Tree.node ll ld lr lb)).key).2
                  rw [hrec] at h2
                  exact h2 rfl
                exact ⟨fun hkk => by simp at hkk,
                  fun _ => Avl.rh (maxEntry (Tree.node ll ld lr lb)) hl' hr⟩
            | true =>
                have h2 := (ihl (maxEntry (Tree.node ll ld lr lb)).key).1
                rw [hrec] at h2
                obtain ⟨h', heq0, hl'⟩ := h2 rfl
                subst heq0
                rcases hdb : deleteRightBalance (Tree.node l'
                    (maxEntry (Tree.node ll ld lr lb)) (Tree.node rl rd2 rr rb) .RH)
                    with ⟨t', sh'⟩
                have h1 : removeAux
                    (Tree.node (Tree.node ll ld lr lb) d (Tree.node rl rd2 rr rb) .RH) d.key
                    = (t', sh', su) := by
                  rw [removeAux.eq_def]
                  simp [hrec, hdb]
                rw [h1]
                have hlem := deleteRightBalance_rh (d := maxEntry (Tree.node ll ld lr lb)) hl' hr
                rw [hdb] at hlem
                exact ⟨fun hkk => ⟨h' + 2, by omega, hlem.1 hkk⟩, fun hkk => hlem.2 hkk⟩
      · rcases hrec : removeAux r k with ⟨r', sh, su⟩
        cases sh with
        | false =>
            have h1 : removeAux (Tree.node l d r .RH) k = (Tree.node l d r' .RH, false, su) := by
              rw [removeAux.eq_def]
              simp [hgt, lt_asymm hgt, hrec]
            rw [h1]
            have hr' : Avl r' (h0 + 1) := by
              have h2 := (ihr k).2
              rw [hrec] at h2
              exact h2 rfl
            exact ⟨fun hkk => by simp at hkk, fun _ => Avl.rh d hl hr'⟩
        | true =>
            have h2 := (ihr k).1
            rw [hrec] at h2
            obtain ⟨h', heq0, hr'⟩ := h2 rfl
            have hh : h' = h0 := by omega
            subst hh
            have h1 : removeAux (Tree.node l d r .RH) k = (Tree.node l d r' .EH, true, su) := by
              rw [removeAux.eq_def]
              simp [hgt, lt_asymm hgt, hrec, deleteLeftBalance]
            rw [h1]
            exact ⟨fun _ => ⟨h' + 1, by omega, Avl.bal d hl hr'⟩, fun hkk => by simp at hkk⟩


theorem keys_node (l r : Tree) (d : Entry) (b : BalancedFactor) :
    keys (Tree.node l d r b) = keys l ++ d.key :: keys r := by
  simp [keys, inorder]

theorem inorder_leftBalance (t : Tree) : inorder (leftBalance t).1 = inorder t := by
  rcases t with _ | ⟨l, d, r, b⟩
  · rfl
  rcases l with _ | ⟨ll, ld, lr, lb⟩
  · rfl
  cases lb
  case LH => simp [leftBalance, rotateRight, inorder]
  case EH => simp [leftBalance, rotateRight, inorder]
  case RH =>
      rcases lr with _ | ⟨lrl, lrd, lrr, lrb⟩
      · rfl
      cases lrb <;> simp [leftBalance, rotateLeft, rotateRight, inorder]

theorem inorder_rightBalance (t : Tree) : inorder (rightBalance t).1 = inorder t := by
  rcases t with _ | ⟨l, d, r, b⟩
  · rfl
  rcases r with _ | ⟨rl, rd, rr, rb⟩
  · rfl
  cases rb
  case RH => simp [rightBalance, rotateLeft, inorder]
  case EH => simp [rightBalance, rotateLeft, inorder]
  case LH =>
      rcases rl with _ | ⟨rll, rld, rlr, rlb⟩
      · rfl
      cases rlb <;> simp [rightBalance, rotateLeft, rotateRight, inorder]

theorem inorder_deleteRightBalance (t : Tree) :
    inorder (deleteRightBalance t).1 = inorder t := by
  rcases t with _ | ⟨l, d, r, b⟩
  · rfl
  cases b
  case LH => simp [deleteRightBalance, inorder]
  case EH => simp [deleteRightBalance, inorder]
  case RH =>
      rcases r with _ | ⟨rl, rd, rr, rb⟩
      · rfl
      cases rb
      case RH => simp [deleteRightBalance, rotateLeft, inorder]
      case EH => simp [deleteRightBalance, rotateLeft, inorder]
      case LH =>
          rcases rl with _ | ⟨rll, rld, rlr, rlb⟩
          · rfl
          cases rlb <;> simp [deleteRightBalance, rotateLeft, rotateRight, inorder]

theorem inorder_deleteLeftBalance (t : Tree) :
    inorder (deleteLeftBalance t).1 = inorder t := by
  rcases t with _ | ⟨l, d, r, b⟩
  · rfl
  cases b
  case RH => simp [deleteLeftBalance, inorder]
  case EH => simp [deleteLeftBalance, inorder]
  case LH =>
      rcases l with _ | ⟨ll, ld, lr, lb⟩
      · rfl
      cases lb
      case LH => simp [deleteLeftBalance, rotateRight, inorder]
      case EH => simp [deleteLeftBalance, rotateRight, inorder]
      case RH =>
          rcases lr with _ | ⟨lrl, lrd, lrr, lrb⟩
          · rfl
          cases lrb <;> simp [deleteLeftBalance, rotateLeft, rotateRight, inorder]

theorem insList_append_lt {x d : Entry} {L R : List Entry} (h : x.key < d.key) :
    insList x (L ++ d :: R) = insList x L ++ d :: R := by
  induction L with
  | nil => simp [insList, h, ne_of_lt h]
  | cons e es ih =>
      by_cases h1 : x.key = e.key
      · simp [insList, h1]
      · by_cases h2 : x.key < e.key
        · simp [insList, h1, h2]
        · simp [insList, h1, h2, ih]

theorem insList_append_gt {x d : Entry} {L R : List Entry} (hgt : d.key < x.key)
    (hL : ∀ e ∈ L, e.key < x.key) :
    insList x (L ++ d :: R) = L ++ d :: insList x R := by
  induction L with
  | nil => simp [insList, ne_of_gt hgt, lt_asymm hgt]
  | cons e es ih =>
      have he : e.key < x.key := hL e (by simp)
      have ih2 := ih (fun a ha => hL a (by simp [ha]))
      simp [insList, ne_of_gt he, lt_asymm he, ih2]

theorem insList_append_eq {x d : Entry} {L R : List Entry} (heq : x.key = d.key)
    (hL : ∀ e ∈ L, e.key < x.key) :
    insList x (L ++ d :: R) = L ++ x :: R := by
  induction L with
  | nil => simp [insList, heq]
  | cons e es ih =>
      have he : e.key < x.key := hL e (by simp)
      have ih2 := ih (fun a ha => hL a (by simp [ha]))
      simp [insList, ne_of_gt he, lt_asymm he, ih2]

theorem inorder_insertAux (x : Entry) : ∀ {t : Tree},
    (keys t).Pairwise (· < ·) → inorder (insertAux t x).1 = insList x (inorder t) := by
  intro t
  induction t with
  | nil => intro _; rfl
  | node l d r b ihl ihr =>
      intro hp
      rw [keys_node, List.pairwise_append] at hp
      obtain ⟨hpl, hpdr, hcross⟩ := hp
      rw [List.pairwise_cons] at hpdr
      obtain ⟨hdr, hpr⟩ := hpdr
      have hlb : ∀ e ∈ inorder l, e.key < d.key := by
        intro e he
        exact hcross e.key (List.mem_map_of_mem Entry.key he) d.key (by simp)
      by_cases hx : x.key = d.key
      · have h1 : (insertAux (Tree.node l d r b) x).1 = Tree.node l x r b := by
          simp [insertAux, hx]
        rw [h1]
        simp only [inorder]
        rw [insList_append_eq hx (fun e he => hx ▸ hlb e he)]
      · by_cases hlt : x.key < d.key
        · rcases hins : insertAux l x with ⟨l', g⟩
          have hl' : inorder l' = insList x (inorder l) := by
            have h2 := ihl hpl
            rw [hins] at h2
            exact h2
          have h1 : inorder (insertAux (Tree.node l d r b) x).1
              = inorder l' ++ d :: inorder r := by
            cases g with
            | false => simp [insertAux, hx, hlt, hins, inorder]
            | true =>
                cases b <;>
                  simp [insertAux, hx, hlt, hins, inorder, inorder_leftBalance]
          rw [h1]
          simp only [inorder]
          rw [insList_append_lt hlt, hl']
        · have hgt : d.key < x.key := lt_of_le_of_ne (not_lt.mp hlt) (Ne.symm hx)
          rcases hins : insertAux r x with ⟨r', g⟩
          have hr' : inorder r' = insList x (inorder r) := by
            have h2 := ihr hpr
            rw [hins] at h2
            exact h2
          have h1 : inorder (insertAux (Tree.node l d r b) x).1
              = inorder l ++ d :: inorder r' := by
            cases g with
            | false => simp [insertAux, hx, hlt, hins, inorder]
            | true =>
                cases b <;>
                  simp [insertAux, hx, hlt, hins, inorder, inorder_rightBalance]
          rw [h1]
          simp only [inorder]
          rw [insList_append_gt hgt (fun e he => lt_trans (hlb e he) hgt), hr']


theorem delList_no_key {k : Int} : ∀ {L : List Entry},
    (∀ e ∈ L, k ≠ e.key) → delList k L = L := by
  intro L
  induction L with
  | nil => intro _; rfl
  | cons e es ih =>
      intro hL
      have h1 : k ≠ e.key := hL e (by simp)
      simp [delList, h1, ih (fun a ha => hL a (by simp [ha]))]

theorem delList_append_lt {k : Int} {d : Entry} {L R : List Entry}
    (h1 : k ≠ d.key) (hR : ∀ e ∈ R, k ≠ e.key) :
    delList k (L ++ d :: R) = delList k L ++ d :: R := by
  induction L with
  | nil => simp [delList, h1, delList_no_key hR]
  | cons e es ih =>
      by_cases h2 : k = e.key
      · simp [delList, h2]
      · simp [delList, h2, ih]

theorem delList_append_gt {k : Int} {d : Entry} {L R : List Entry}
    (hL : ∀ e ∈ L, k ≠ e.key) (h1 : k ≠ d.key) :
    delList k (L ++ d :: R) = L ++ d :: delList k R := by
  induction L with
  | nil => simp [delList, h1]
  | cons e es ih =>
      have h2 : k ≠ e.key := hL e (by simp)
      simp [delList, h2, ih (fun a ha => hL a (by simp [ha]))]

theorem delList_append_eq {k : Int} {d : Entry} {L R : List Entry}
    (hL : ∀ e ∈ L, k ≠ e.key) (h1 : k = d.key) :
    delList k (L ++ d :: R) = L ++ R := by
  induction L with
  | nil => simp [delList, h1]
  | cons e es ih =>
      have h2 : k ≠ e.key := hL e (by simp)
      simp [delList, h2, ih (fun a ha => hL a (by simp [ha]))]

theorem inorder_maxEntry : ∀ {l0 : Tree}, l0 ≠ Tree.nil →
    ∃ L0, inorder l0 = L0 ++ [maxEntry l0] := by
  intro l0
  induction l0 with
  | nil => intro hne; exact absurd rfl hne
  | node l d r b ihl ihr =>
      intro _
      rcases r with _ | ⟨rl, rd, rr, rb⟩
      · exact ⟨inorder l, by simp [inorder, maxEntry]⟩
      · obtain ⟨L0, hL0⟩ := ihr (by simp)
        refine ⟨inorder l ++ d :: L0, ?_⟩
        show inorder l ++ d :: inorder (Tree.node rl rd rr rb)
          = (inorder l ++ d :: L0) ++ [maxEntry (Tree.node rl rd rr rb)]
        rw [hL0]
        simp

theorem maxEntry_last_lt {s : Tree} (hne : s ≠ Tree.nil)
    (hp : (keys s).Pairwise (· < ·)) :
    ∃ L0, inorder s = L0 ++ [maxEntry s] ∧ ∀ e ∈ L0, e.key < (maxEntry s).key := by
  obtain ⟨L0, hL0⟩ := inorder_maxEntry hne
  refine ⟨L0, hL0, ?_⟩
  intro e he
  have hk : keys s = L0.map Entry.key ++ [(maxEntry s).key] := by
    simp [keys, hL0]
  rw [hk, List.pairwise_append] at hp
  exact hp.2.2 e.key (List.mem_map_of_mem Entry.key he) (maxEntry s).key (by simp)

theorem inorder_removeAux : ∀ {t : Tree}, (keys t).Pairwise (· < ·) → ∀ k : Int,
    inorder (removeAux t k).1 = delList k (inorder t) := by
  intro t
  induction t with
  | nil => intro _ k; rfl
  | node l d r b ihl ihr =>
      intro hp k
      rw [keys_node, List.pairwise_append] at hp
      obtain ⟨hpl, hpdr, hcross⟩ := hp
      rw [List.pairwise_cons] at hpdr
      obtain ⟨hdr, hpr⟩ := hpdr
      have hlb : ∀ e ∈ inorder l, e.key < d.key := by
        intro e he
        exact hcross e.key (List.mem_map_of_mem Entry.key he) d.key (by simp)
      have hrb : ∀ e ∈ inorder r, d.key < e.key := by
        intro e he
        exact hdr e.key (List.mem_map_of_mem Entry.key he)
      rcases lt_trichotomy k d.key with hlt | heq | hgt
      · rcases hrec : removeAux l k with ⟨l', sh, su⟩
        have hl' : inorder l' = delList k (inorder l) := by
          have h2 := ihl hpl k
          rw [hrec] at h2
          exact h2
        have h1 : inorder (removeAux (Tree.node l d r b) k).1
            = inorder l' ++ d :: inorder r := by
          cases sh with
          | false =>
              rw [removeAux.eq_def]
              simp [hlt, hrec, inorder]
          | true =>
              rw [removeAux.eq_def]
              simp [hlt, hrec, inorder_deleteRightBalance, inorder]
        rw [h1]
        simp only [inorder]
        rw [delList_append_lt (ne_of_lt hlt)
          (fun e he => ne_of_lt (lt_trans hlt (hrb e he))), hl']
      · subst heq
        rcases l with _ | ⟨ll, ld, lr, lb⟩
        · have h1 : removeAux (Tree.node .nil d r b) d.key = (r, true, true) := by
            rw [removeAux.eq_def]
            simp
          rw [h1]
          simp only [inorder]
          rw [delList_append_eq (by simp) rfl]
          rfl
        · rcases r with _ | ⟨rl, rd2, rr, rb⟩
          · have h1 : removeAux (Tree.node (Tree.node ll ld lr lb) d .nil b) d.key
                = (Tree.node ll ld lr lb, true, true) := by
              rw [removeAux.eq_def]
              simp
            rw [h1]
            conv_rhs => rw [inorder]
            rw [delList_append_eq (fun e he => (ne_of_gt (hlb e he))) rfl]
            simp [inorder]
          · obtain ⟨L0, hL0, hlast⟩ := maxEntry_last_lt
              (s := Tree.node ll ld lr lb) (by simp) hpl
            rcases hrec : removeAux (Tree.node ll ld lr lb)
                (maxEntry (Tree.node ll ld lr lb)).key with ⟨l', sh, su⟩
            have hl' : inorder l' = L0 := by
              have h2 := ihl hpl (maxEntry (Tree.node ll ld lr lb)).key
              rw [hrec] at h2
              rw [h2, hL0]
              have := delList_append_eq (k := (maxEntry (Tree.node ll ld lr lb)).key)
                (R := ([] : List Entry)) (fun e he => ne_of_gt (hlast e he)) rfl
              simpa using this
            have h1 : inorder (removeAux
                (Tree.node (Tree.node ll ld lr lb) d (Tree.node rl rd2 rr rb) b) d.key).1
                = inorder l' ++ maxEntry (Tree.node ll ld lr lb)
                    :: inorder (Tree.node rl rd2 rr rb) := by
              cases sh with
              | false =>
                  rw [removeAux.eq_def]
                  simp [hrec, inorder]
              | true =>
                  rw [removeAux.eq_def]
                  simp [hrec, inorder_deleteRightBalance, inorder]
            rw [h1]
            conv_rhs => rw [inorder]
            rw [delList_append_eq (fun e he => ne_of_gt (hlb e he)) rfl]
            rw [hl']
            rw [show inorder (Tree.node ll ld lr lb)
              = L0 ++ [maxEntry (Tree.node ll ld lr lb)] from hL0]
            simp
      · rcases hrec : removeAux r k with ⟨r', sh, su⟩
        have hr' : inorder r' = delList k (inorder r) := by
          have h2 := ihr hpr k
          rw [hrec] at h2
          exact h2
        have h1 : inorder (removeAux (Tree.node l d r b) k).1
            = inorder l ++ d :: inorder r' := by
          cases sh with
          | false =>
              rw [removeAux.eq_def]
              simp [hgt, lt_asymm hgt, hrec, inorder]
          | true =>
              rw [removeAux.eq_def]
              simp [hgt, lt_asymm hgt, hrec, inorder_deleteLeftBalance, inorder]
        rw [h1]
        simp only [inorder]
        rw [delList_append_gt (fun e he => ne_of_gt (lt_trans (hlb e he) hgt))
          (ne_of_gt hgt), hr']


theorem insList_mem_sub {x b : Entry} : ∀ {L : List Entry},
    b ∈ insList x L → b = x ∨ b ∈ L := by
  intro L
  induction L with
  | nil =>
      intro hm
      simp [insList] at hm
      exact Or.inl hm
  | cons e es ih =>
      intro hm
      simp only [insList] at hm
      by_cases h1 : x.key = e.key
      · rw [if_pos h1] at hm
        rcases List.mem_cons.mp hm with h | h
        · exact Or.inl h
        · exact Or.inr (List.mem_cons_of_mem _ h)
      · rw [if_neg h1] at hm
        by_cases h2 : x.key < e.key
        · rw [if_pos h2] at hm
          rcases List.mem_cons.mp hm with h | h
          · exact Or.inl h
          · exact Or.inr h
        · rw [if_neg h2] at hm
          rcases List.mem_cons.mp hm with h | h
          · exact Or.inr (h ▸ List.mem_cons_self e es)
          · rcases ih h with h3 | h3
            · exact Or.inl h3
            · exact Or.inr (List.mem_cons_of_mem _ h3)

theorem insList_keys_sub {x : Entry} {a : Int} {L : List Entry}
    (h : a ∈ (insList x L).map Entry.key) : a = x.key ∨ a ∈ L.map Entry.key := by
  rcases List.mem_map.mp h with ⟨b, hb, hk⟩
  rcases insList_mem_sub hb with h3 | h3
  · exact Or.inl (by rw [← hk, h3])
  · exact Or.inr (hk ▸ List.mem_map_of_mem Entry.key h3)

theorem insList_pairwise {x : Entry} : ∀ {L : List Entry},
    (L.map Entry.key).Pairwise (· < ·) →
    ((insList x L).map Entry.key).Pairwise (· < ·) := by
  intro L
  induction L with
  | nil => intro _; simp [insList]
  | cons e es ih =>
      intro hp
      simp only [List.map_cons, List.pairwise_cons] at hp
      obtain ⟨he, hes⟩ := hp
      simp only [insList]
      by_cases h1 : x.key = e.key
      · rw [if_pos h1]
        simp only [List.map_cons, List.pairwise_cons]
        exact ⟨fun a ha => h1 ▸ he a ha, hes⟩
      · rw [if_neg h1]
        by_cases h2 : x.key < e.key
        · rw [if_pos h2]
          simp only [List.map_cons, List.pairwise_cons]
          refine ⟨?_, he, hes⟩
          intro a ha
          rcases List.mem_cons.mp ha with ha | ha
          · exact ha.symm ▸ h2
          · exact lt_trans h2 (he a ha)
        · rw [if_neg h2]
          simp only [List.map_cons, List.pairwise_cons]
          refine ⟨?_, ih hes⟩
          intro a ha
          rcases insList_keys_sub ha with h3 | h3
          · subst h3
            exact lt_of_le_of_ne (not_lt.mp h2) (fun hc => h1 hc.symm)
          · exact he a h3

theorem delList_sublist (k : Int) : ∀ L : List Entry, List.Sublist (delList k L) L := by
  intro L
  induction L with
  | nil => simp [delList]
  | cons e es ih =>
      by_cases h1 : k = e.key
      · simp only [delList, h1, if_pos]
        exact (List.Sublist.refl es).cons e
      · simp only [delList, h1, ite_false]
        exact ih.cons₂ e

theorem insList_length_not_mem {x : Entry} : ∀ {L : List Entry},
    x.key ∉ L.map Entry.key → (insList x L).length = L.length + 1 := by
  intro L
  induction L with
  | nil => intro _; rfl
  | cons e es ih =>
      intro hm
      simp only [List.map_cons, List.mem_cons, not_or] at hm
      obtain ⟨h1, h2⟩ := hm
      by_cases h3 : x.key < e.key
      · simp [insList, h1, h3]
      · simp [insList, h1, h3, ih h2]

theorem insList_length_mem {x : Entry} : ∀ {L : List Entry},
    (L.map Entry.key).Pairwise (· < ·) →
    x.key ∈ L.map Entry.key → (insList x L).length = L.length := by
  intro L
  induction L with
  | nil => intro _ hm; simp at hm
  | cons e es ih =>
      intro hp hm
      simp only [List.map_cons, List.pairwise_cons] at hp
      obtain ⟨he, hes⟩ := hp
      by_cases h1 : x.key = e.key
      · simp [insList, h1]
      · have hm2 : x.key ∈ es.map Entry.key := by
          simp only [List.map_cons, List.mem_cons] at hm
          exact hm.resolve_left h1
        have h3 : ¬ x.key < e.key := by
          intro hc
          exact absurd (he x.key hm2) (lt_asymm hc)
        simp [insList, h1, h3, ih hes hm2]

theorem delList_length_mem {k : Int} : ∀ {L : List Entry},
    k ∈ L.map Entry.key → (delList k L).length + 1 = L.length := by
  intro L
  induction L with
  | nil => intro hm; simp at hm
  | cons e es ih =>
      intro hm
      by_cases h1 : k = e.key
      · simp [delList, h1]
      · have hm2 : k ∈ es.map Entry.key := by
          simp only [List.map_cons, List.mem_cons] at hm
          exact hm.resolve_left h1
        simp [delList, h1, ih hm2]

theorem delList_not_mem {k : Int} {L : List Entry}
    (hm : k ∉ L.map Entry.key) : delList k L = L := by
  refine delList_no_key ?_
  intro e he hc
  exact hm (hc ▸ List.mem_map_of_mem Entry.key he)

theorem sizeT_eq_length : ∀ t : Tree, sizeT t = (inorder t).length := by
  intro t
  induction t with
  | nil => rfl
  | node l d r ihb ihl ihr =>
      simp [sizeT, inorder, ihl, ihr]
      omega

theorem memberT_iff : ∀ {t : Tree}, (keys t).Pairwise (· < ·) → ∀ {k : Int},
    (memberT t k = true ↔ k ∈ keys t) := by
  intro t
  induction t with
  | nil => intro _ k; simp [memberT, keys, inorder]
  | node l d r b ihl ihr =>
      intro hp k
      rw [keys_node, List.pairwise_append] at hp
      obtain ⟨hpl, hpdr, hcross⟩ := hp
      rw [List.pairwise_cons] at hpdr
      obtain ⟨hdr, hpr⟩ := hpdr
      rw [keys_node]
      rcases lt_trichotomy k d.key with hlt | heq | hgt
      · have h1 : memberT (Tree.node l d r b) k = memberT l k := by
          simp [memberT, ne_of_lt hlt, hlt]
        rw [h1, ihl hpl]
        constructor
        · intro h; exact List.mem_append_left _ h
        · intro h
          rcases List.mem_append.mp h with h | h
          · exact h
          · rcases List.mem_cons.mp h with h | h
            · exact absurd h (ne_of_lt hlt)
            · exact absurd (hdr k h) (lt_asymm hlt)
      · subst heq
        simp [memberT]
      · have h1 : memberT (Tree.node l d r b) k = memberT r k := by
          simp [memberT, ne_of_gt hgt, lt_asymm hgt]
        rw [h1, ihr hpr]
        constructor
        · intro h
          exact List.mem_append_right _ (List.mem_cons_of_mem _ h)
        · intro h
          rcases List.mem_append.mp h with h | h
          · exact absurd (hcross k h d.key (by simp)) (lt_asymm hgt)
          · rcases List.mem_cons.mp h with h | h
            · exact absurd h (ne_of_gt hgt)
            · exact h


theorem removeAux_success : ∀ {t : Tree}, (keys t).Pairwise (· < ·) → ∀ k : Int,
    ((removeAux t k).2.2 = true ↔ k ∈ keys t) := by
  intro t
  induction t with
  | nil =>
      intro _ k
      rw [removeAux.eq_def]
      simp [keys, inorder]
  | node l d r b ihl ihr =>
      intro hp k
      rw [keys_node, List.pairwise_append] at hp
      obtain ⟨hpl, hpdr, hcross⟩ := hp
      rw [List.pairwise_cons] at hpdr
      obtain ⟨hdr, hpr⟩ := hpdr
      rcases lt_trichotomy k d.key with hlt | heq | hgt
      · rcases hrec : removeAux l k with ⟨l', sh, su⟩
        have h1 : (removeAux (Tree.node l d r b) k).2.2 = su := by
          cases sh with
          | false =>
              rw [removeAux.eq_def]
              simp [hlt, hrec]
          | true =>
              rw [removeAux.eq_def]
              simp [hlt, hrec]
        have h2 := ihl hpl k
        rw [hrec] at h2
        rw [h1, keys_node]
        constructor
        · intro h
          exact List.mem_append_left _ (h2.mp h)
        · intro h
          apply h2.mpr
          rcases List.mem_append.mp h with h | h
          · exact h
          · rcases List.mem_cons.mp h with h | h
            · exact absurd h (ne_of_lt hlt)
            · exact absurd (hdr k h) (lt_asymm hlt)
      · subst heq
        rcases l with _ | ⟨ll, ld, lr, lb⟩
        · have h1 : removeAux (Tree.node .nil d r b) d.key = (r, true, true) := by
            rw [removeAux.eq_def]
            simp
          rw [h1, keys_node]
          simp
        · rcases r with _ | ⟨rl, rd2, rr, rb⟩
          · have h1 : removeAux (Tree.node (Tree.node ll ld lr lb) d .nil b) d.key
                = (Tree.node ll ld lr lb, true, true) := by
              rw [removeAux.eq_def]
              simp
            rw [h1, keys_node]
            simp
          · obtain ⟨L0, hL0, hlast⟩ := maxEntry_last_lt
              (s := Tree.node ll ld lr lb) (by simp) hpl
            rcases hrec : removeAux (Tree.node ll ld lr lb)
                (maxEntry (Tree.node ll ld lr lb)).key with ⟨l', sh, su⟩
            have hsu : su = true := by
              have h2 := ihl hpl (maxEntry (Tree.node ll ld lr lb)).key
              rw [hrec] at h2
              apply h2.mpr
              have hmem : maxEntry (Tree.node ll ld lr lb)
                  ∈ inorder (Tree.node ll ld lr lb) := by
                rw [hL0]
                simp
              exact List.mem_map_of_mem Entry.key hmem
            have h1 : (removeAux (Tree.node (Tree.node ll ld lr lb) d
                (Tree.node rl rd2 rr rb) b) d.key).2.2 = su := by
              cases sh with
              | false =>
                  rw [removeAux.eq_def]
                  simp [hrec]
              | true =>
                  rw [removeAux.eq_def]
                  simp [hrec]
            rw [h1, hsu, keys_node]
            simp
      · rcases hrec : removeAux r k with ⟨r', sh, su⟩
        have h1 : (removeAux (Tree.node l d r b) k).2.2 = su := by
          cases sh with
          | false =>
              rw [removeAux.eq_def]
              simp [hgt, lt_asymm hgt, hrec]
          | true =>
              rw [removeAux.eq_def]
              simp [hgt, lt_asymm hgt, hrec]
        have h2 := ihr hpr k
        rw [hrec] at h2
        rw [h1, keys_node]
        constructor
        · intro h
          exact List.mem_append_right _ (List.mem_cons_of_mem _ (h2.mp h))
        · intro h
          apply h2.mpr
          rcases List.mem_append.mp h with h | h
          · exact absurd (hcross k h d.key (by simp)) (lt_asymm hgt)
          · rcases List.mem_cons.mp h with h | h
            · exact absurd h (ne_of_gt hgt)
            · exact h


theorem inv_empty : Inv AVLTree.empty :=
  ⟨rfl, by simp [keys, inorder, AVLTree.empty], by simp [AVLTree.empty, sizeT]⟩

theorem inv_insert {a : AVLTree} (hi : Inv a) (x : Entry) : Inv (a.insert x) := by
  obtain ⟨hc, hpw, hcount⟩ := hi
  obtain ⟨h, hav⟩ := avl_of_avlCheck hc
  have havl' : avlCheck (insertAux a.root x).1 = true := by
    have hthm := insertAux_avl x hav
    rcases hg : (insertAux a.root x).2 with _ | _
    · exact avlCheck_of_avl (hthm.2 hg)
    · exact avlCheck_of_avl (hthm.1 hg).1
  have hio : inorder (insertAux a.root x).1 = insList x (inorder a.root) :=
    inorder_insertAux x hpw
  have hpw' : (keys (insertAux a.root x).1).Pairwise (· < ·) := by
    rw [keys, hio]
    exact insList_pairwise hpw
  refine ⟨havl', hpw', ?_⟩
  show (if memberT a.root x.key then a.count else a.count + 1)
      = (sizeT (insertAux a.root x).1 : Int)
  rw [sizeT_eq_length, hio]
  by_cases hm : memberT a.root x.key
  · rw [if_pos hm]
    have hmk : x.key ∈ keys a.root := (memberT_iff hpw).mp hm
    rw [insList_length_mem hpw hmk, hcount, sizeT_eq_length]
  · rw [if_neg hm]
    have hmk : x.key ∉ keys a.root := fun hmem => hm ((memberT_iff hpw).mpr hmem)
    rw [insList_length_not_mem hmk, hcount, sizeT_eq_length]
    push_cast
    omega

theorem inv_remove {a : AVLTree} (hi : Inv a) (x : Entry) : Inv (a.remove x) := by
  obtain ⟨hc, hpw, hcount⟩ := hi
  obtain ⟨h, hav⟩ := avl_of_avlCheck hc
  have hthm := removeAux_avl hav x.key
  have havl' : avlCheck (removeAux a.root x.key).1 = true := by
    rcases hsh : (removeAux a.root x.key).2.1 with _ | _
    · exact avlCheck_of_avl (hthm.2 hsh)
    · obtain ⟨h', heq', ha'⟩ := hthm.1 hsh
      exact avlCheck_of_avl ha'
  have hio : inorder (removeAux a.root x.key).1 = delList x.key (inorder a.root) :=
    inorder_removeAux hpw x.key
  have hpw' : (keys (removeAux a.root x.key).1).Pairwise (· < ·) := by
    rw [keys, hio]
    exact List.Pairwise.sublist
      (List.Sublist.map Entry.key (delList_sublist x.key (inorder a.root))) hpw
  refine ⟨havl', hpw', ?_⟩
  show (if (removeAux a.root x.key).2.2 then a.count - 1 else a.count)
      = (sizeT (removeAux a.root x.key).1 : Int)
  rw [sizeT_eq_length, hio]
  by_cases hsu : (removeAux a.root x.key).2.2 = true
  · rw [if_pos hsu]
    have hmk : x.key ∈ keys a.root := (removeAux_success hpw x.key).mp hsu
    have hlen := delList_length_mem (k := x.key) (L := inorder a.root) hmk
    rw [hcount, sizeT_eq_length]
    omega
  · rw [if_neg hsu]
    have hmk : x.key ∉ keys a.root := fun hmem => hsu ((removeAux_success hpw x.key).mpr hmem)
    rw [delList_not_mem hmk, hcount, sizeT_eq_length]

theorem inv_applyOp {a : AVLTree} (hi : Inv a) (op : Op) : Inv (applyOp a op) := by
  cases op with
  | insert x => exact inv_insert hi x
  | remove x => exact inv_remove hi x

theorem inv_foldl (ops : List Op) : ∀ a : AVLTree, Inv a → Inv (ops.foldl applyOp a) := by
  induction ops with
  | nil => intro a hi; exact hi
  | cons op ops ih => intro a hi; exact ih _ (inv_applyOp hi op)

theorem inv_runOps (ops : List Op) : Inv (runOps ops) :=
  inv_foldl ops _ inv_empty


theorem bfs_append : ∀ (a b : List Tree), bfs (a ++ b) = rootsE a ++ bfs (b ++ childrenF a) := by
  intro a
  induction a with
  | nil =>
      intro b
      simp [rootsE, childrenF]
  | cons t a' ih =>
      intro b
      rcases t with _ | ⟨l, d, r, bb⟩
      · have h1 : bfs ((Tree.nil :: a') ++ b) = bfs (a' ++ b) := by
          rw [List.cons_append, bfs]
        rw [h1, ih b]
        simp [rootsE, childrenF, childrenOf]
      · have h1 : bfs ((Tree.node l d r bb :: a') ++ b) = d :: bfs ((a' ++ b) ++ [l, r]) := by
          rw [List.cons_append, bfs]
        rw [h1, show (a' ++ b) ++ [l, r] = a' ++ (b ++ [l, r]) from by simp,
          ih (b ++ [l, r])]
        simp [rootsE, childrenF, childrenOf]

theorem bfs_step (q : List Tree) : bfs q = rootsE q ++ bfs (childrenF q) := by
  have h := bfs_append q []
  simpa using h

theorem bfs_all_nil : ∀ {q : List Tree}, (∀ t ∈ q, t = Tree.nil) → bfs q = [] := by
  intro q
  induction q with
  | nil => intro _; rw [bfs]
  | cons t q' ih =>
      intro hall
      have ht : t = Tree.nil := hall t (by simp)
      subst ht
      rw [bfs]
      exact ih (fun t ht => hall t (by simp [ht]))

theorem levelCount_eq_zero {t : Tree} : levelCount t = 0 ↔ t = Tree.nil := by
  cases t with
  | nil => simp [levelCount]
  | node l d r b =>
      simp only [levelCount]
      constructor
      · intro h
        omega
      · intro h
        exact Tree.noConfusion h

theorem level0_forest : ∀ q : List Tree,
    (q.map (fun t => levelEntries t 0)).flatten = rootsE q := by
  intro q
  induction q with
  | nil => rfl
  | cons t q' ih =>
      rcases t with _ | ⟨l, d, r, b⟩ <;> simp [levelEntries, rootsE, ih]

theorem levelF_succ : ∀ (q : List Tree) (k : Nat),
    (q.map (fun t => levelEntries t (k + 1))).flatten
      = ((childrenF q).map (fun t => levelEntries t k)).flatten := by
  intro q k
  induction q with
  | nil => rfl
  | cons t q' ih =>
      rcases t with _ | ⟨l, d, r, b⟩
      · simpa [levelEntries, childrenF, childrenOf] using ih
      · simp [levelEntries, childrenF, childrenOf, ih]

theorem childrenF_levelCount {n : Nat} : ∀ {q : List Tree},
    (∀ t ∈ q, levelCount t ≤ n + 1) → ∀ t' ∈ childrenF q, levelCount t' ≤ n := by
  intro q
  induction q with
  | nil =>
      intro _ t' ht'
      simp [childrenF] at ht'
  | cons t q' ih =>
      intro hb t' ht'
      rw [childrenF] at ht'
      rcases List.mem_append.mp ht' with h | h
      · rcases t with _ | ⟨l, d, r, b⟩
        · simp [childrenOf] at h
        · have hlc := hb (Tree.node l d r b) (by simp)
          simp only [levelCount] at hlc
          simp only [childrenOf, List.mem_cons, List.mem_singleton] at h
          rcases h with h | h
          · subst h
            have hm := le_max_left (levelCount t') (levelCount r)
            omega
          · rcases h with h | h2
            · subst h
              have hm := le_max_right (levelCount l) (levelCount t')
              omega
            · simp at h2
      · exact ih (fun t ht => hb t (by simp [ht])) t' h

theorem bfs_levels_forest : ∀ n : Nat, ∀ q : List Tree,
    (∀ t ∈ q, levelCount t ≤ n) →
    bfs q = ((List.range n).map
      (fun k => (q.map (fun t => levelEntries t k)).flatten)).flatten := by
  intro n
  induction n with
  | zero =>
      intro q hb
      have hall : ∀ t ∈ q, t = Tree.nil := fun t ht =>
        levelCount_eq_zero.mp (Nat.le_zero.mp (hb t ht))
      simp [bfs_all_nil hall]
  | succ n ihn =>
      intro q hb
      rw [bfs_step q, ihn (childrenF q) (childrenF_levelCount hb),
        List.range_succ_eq_map, List.map_cons, List.flatten_cons, level0_forest,
        List.map_map]
      congr 1
      congr 1
      apply List.map_congr_left
      intro k _
      exact (levelF_succ q k).symm

theorem bfs_levelsList (t : Tree) : bfs [t] = (levelsList t).flatten := by
  have h := bfs_levels_forest (levelCount t) [t] ?_
  · rw [h, levelsList]
    congr 1
    apply List.map_congr_left
    intro k _
    simp
  · intro t' ht'
    simp at ht'
    subst ht'
    exact le_refl _


theorem depthAux_not_mem : ∀ {t : Tree} {k : Int}, memberT t k = false →
    ∀ a : Int, depthAux t k a = -1 - (a + (insDepth t k : Int)) := by
  intro t
  induction t with
  | nil =>
      intro k _ a
      simp [depthAux, insDepth]
  | node l e r b ihl ihr =>
      intro k hm a
      by_cases hk : k = e.key
      · rw [memberT, if_pos hk] at hm
        exact absurd hm (by simp)
      · rw [memberT, if_neg hk] at hm
        by_cases hlt : k < e.key
        · rw [if_pos hlt] at hm
          rw [depthAux, if_neg hk, if_pos hlt, insDepth, if_pos hlt, ihl hm (a + 1)]
          push_cast
          omega
        · rw [if_neg hlt] at hm
          rw [depthAux, if_neg hk, if_neg hlt, insDepth, if_neg hlt, ihr hm (a + 1)]
          push_cast
          omega

theorem depthOf_mem : ∀ {t : Tree} {k : Int} {d : Nat},
    depthOf t k = some d → k ∈ keys t := by
  intro t
  induction t with
  | nil => intro k d hd; simp [depthOf] at hd
  | node l e r b ihl ihr =>
      intro k d hd
      rw [keys_node]
      by_cases hk : k = e.key
      · simp [hk]
      · rw [depthOf, if_neg hk] at hd
        rcases hdl : depthOf l k with _ | dl
        · rw [hdl] at hd
          rcases hdr : depthOf r k with _ | dr
          · rw [hdr] at hd
            simp at hd
          · exact List.mem_append_right _ (List.mem_cons_of_mem _ (ihr hdr))
        · exact List.mem_append_left _ (ihl hdl)

theorem mem_depthOf : ∀ {t : Tree} {k : Int}, k ∈ keys t →
    ∃ d, depthOf t k = some d := by
  intro t
  induction t with
  | nil => intro k hm; simp [keys, inorder] at hm
  | node l e r b ihl ihr =>
      intro k hm
      by_cases hk : k = e.key
      · exact ⟨0, by rw [depthOf, if_pos hk]⟩
      · rw [keys_node] at hm
        rcases hdl : depthOf l k with _ | dl
        · rcases List.mem_append.mp hm with h | h
          · obtain ⟨dl, hdl2⟩ := ihl h
            rw [hdl2] at hdl
            exact absurd hdl (by simp)
          · rcases List.mem_cons.mp h with h | h
            · exact absurd h hk
            · obtain ⟨dr, hdr⟩ := ihr h
              exact ⟨dr + 1, by rw [depthOf, if_neg hk, hdl, hdr]⟩
        · exact ⟨dl + 1, by rw [depthOf, if_neg hk, hdl]⟩

theorem depthAux_depthOf : ∀ {t : Tree}, (keys t).Pairwise (· < ·) →
    ∀ {k : Int} {d : Nat}, depthOf t k = some d →
    ∀ a : Int, depthAux t k a = a + (d : Int) := by
  intro t
  induction t with
  | nil => intro _ k d hd; simp [depthOf] at hd
  | node l e r b ihl ihr =>
      intro hp k d hd a
      rw [keys_node, List.pairwise_append] at hp
      obtain ⟨hpl, hpdr, hcross⟩ := hp
      rw [List.pairwise_cons] at hpdr
      obtain ⟨hdr2, hpr⟩ := hpdr
      by_cases hk : k = e.key
      · rw [depthOf, if_pos hk] at hd
        injection hd with hd
        subst hd
        rw [depthAux, if_pos hk]
        simp
      · rw [depthOf, if_neg hk] at hd
        by_cases hlt : k < e.key
        · rcases hdl : depthOf l k with _ | dl
          · rw [hdl] at hd
            rcases hdr : depthOf r k with _ | dr
            · rw [hdr] at hd
              simp at hd
            · have hmem := depthOf_mem hdr
              exact absurd (hdr2 k hmem) (lt_asymm hlt)
          · rw [hdl] at hd
            injection hd with hd
            subst hd
            rw [depthAux, if_neg hk, if_pos hlt, ihl hpl hdl (a + 1)]
            push_cast
            omega
        · have hgt : e.key < k := lt_of_le_of_ne (not_lt.mp hlt) (fun hc => hk hc.symm)
          rcases hdl : depthOf l k with _ | dl
          · rw [hdl] at hd
            rcases hdr : depthOf r k with _ | dr
            · rw [hdr] at hd
              simp at hd
            · rw [hdr] at hd
              injection hd with hd
              subst hd
              rw [depthAux, if_neg hk, if_neg hlt, ihr hpr hdr (a + 1)]
              push_cast
              omega
          · have hmem := depthOf_mem hdl
            exact absurd (hcross k hmem e.key (by simp)) (lt_asymm hgt)

theorem map_keep {f : Entry → Entry} : ∀ {L : List Entry},
    (∀ e ∈ L, f e = e) → L.map f = L := by
  intro L
  induction L with
  | nil => intro _; rfl
  | cons e es ih =>
      intro h
      simp [h e (by simp), ih (fun a ha => h a (by simp [ha]))]

theorem insList_replace {x : Entry} : ∀ {L : List Entry},
    (L.map Entry.key).Pairwise (· < ·) → x.key ∈ L.map Entry.key →
    insList x L = L.map (fun e => if e.key = x.key then x else e) := by
  intro L
  induction L with
  | nil => intro _ hm; simp at hm
  | cons e es ih =>
      intro hp hm
      simp only [List.map_cons, List.pairwise_cons] at hp
      obtain ⟨he, hes⟩ := hp
      by_cases h1 : x.key = e.key
      · have hrest : es.map (fun e => if e.key = x.key then x else e) = es := by
          apply map_keep
          intro a ha
          rw [if_neg]
          intro hc
          have := he a.key (List.mem_map_of_mem Entry.key ha)
          rw [hc, ← h1] at this
          exact lt_irrefl _ this
        simp only [insList, if_pos h1, List.map_cons, if_pos h1.symm, hrest]
      · have hm2 : x.key ∈ es.map Entry.key := by
          simp only [List.map_cons, List.mem_cons] at hm
          exact hm.resolve_left (fun hc => h1 hc)
        have h2 : ¬ x.key < e.key := by
          intro hc
          exact absurd (he x.key hm2) (lt_asymm hc)
        have h3 : e.key ≠ x.key := fun hc => h1 hc.symm
        simp only [insList, if_neg h1, if_neg h2, List.map_cons, if_neg h3, ih hes hm2]

theorem insList_self_key {x : Entry} : ∀ {L : List Entry},
    x.key ∈ (insList x L).map Entry.key := by
  intro L
  induction L with
  | nil => simp [insList]
  | cons e es ih =>
      by_cases h1 : x.key = e.key
      · simp [insList, h1]
      · by_cases h2 : x.key < e.key
        · simp [insList, h1, h2]
        · simp only [insList, if_neg h1, if_neg h2, List.map_cons, List.mem_cons]
          exact Or.inr ih

theorem delList_self_not_key {k : Int} : ∀ {L : List Entry},
    (L.map Entry.key).Pairwise (· < ·) → k ∉ (delList k L).map Entry.key := by
  intro L
  induction L with
  | nil => intro _; simp [delList]
  | cons e es ih =>
      intro hp
      simp only [List.map_cons, List.pairwise_cons] at hp
      obtain ⟨he, hes⟩ := hp
      by_cases h1 : k = e.key
      · rw [delList, if_pos h1]
        intro hc
        exact absurd (h1 ▸ he k hc) (lt_irrefl _)
      · rw [delList, if_neg h1]
        simp only [List.map_cons, List.mem_cons]
        intro hc
        rcases hc with hc | hc
        · exact h1 hc
        · exact ih hes hc


theorem insList_self_mem {x : Entry} : ∀ {L : List Entry}, x ∈ insList x L := by
  intro L
  induction L with
  | nil => simp [insList]
  | cons e es ih =>
      by_cases h1 : x.key = e.key
      · simp [insList, h1]
      · by_cases h2 : x.key < e.key
        · simp [insList, h1, h2]
        · simp only [insList, if_neg h1, if_neg h2, List.mem_cons]
          exact Or.inr ih

theorem retrieveT_spec : ∀ (t : Tree) (k : Int),
    (memberT t k = true →
      ∃ e, retrieveT t k = .ok e ∧ e.key = k ∧ e ∈ inorder t)
    ∧ (memberT t k = false →
      retrieveT t k = .error ⟨"AVLTreeException: No such element in this tree"⟩) := by
  intro t
  induction t with
  | nil =>
      intro k
      exact ⟨fun h => by simp [memberT] at h, fun _ => rfl⟩
  | node l d r b ihl ihr =>
      intro k
      by_cases hk : k = d.key
      · refine ⟨fun _ => ⟨d, ?_, hk.symm, by simp [inorder]⟩, fun hm => ?_⟩
        · rw [retrieveT, if_pos hk]
        · rw [memberT, if_pos hk] at hm
          exact absurd hm (by simp)
      · by_cases hlt : k < d.key
        · refine ⟨fun hm => ?_, fun hm => ?_⟩
          · rw [memberT, if_neg hk, if_pos hlt] at hm
            obtain ⟨e, he1, he2, he3⟩ := (ihl k).1 hm
            exact ⟨e, by rw [retrieveT, if_neg hk, if_pos hlt]; exact he1, he2,
              by simp [inorder, he3]⟩
          · rw [memberT, if_neg hk, if_pos hlt] at hm
            rw [retrieveT, if_neg hk, if_pos hlt]
            exact (ihl k).2 hm
        · refine ⟨fun hm => ?_, fun hm => ?_⟩
          · rw [memberT, if_neg hk, if_neg hlt] at hm
            obtain ⟨e, he1, he2, he3⟩ := (ihr k).1 hm
            exact ⟨e, by rw [retrieveT, if_neg hk, if_neg hlt]; exact he1, he2,
              by simp [inorder, he3]⟩
          · rw [memberT, if_neg hk, if_neg hlt] at hm
            rw [retrieveT, if_neg hk, if_neg hlt]
            exact (ihr k).2 hm

theorem removeAux_not_mem : ∀ {t : Tree} {k : Int}, memberT t k = false →
    removeAux t k = (t, false, false) := by
  intro t
  induction t with
  | nil =>
      intro k _
      rw [removeAux]
  | node l d r b ihl ihr =>
      intro k hm
      by_cases hk : k = d.key
      · rw [memberT, if_pos hk] at hm
        exact absurd hm (by simp)
      · rw [memberT, if_neg hk] at hm
        by_cases hlt : k < d.key
        · rw [if_pos hlt] at hm
          rw [removeAux.eq_def]
          simp [hlt, ihl hm]
        · rw [if_neg hlt] at hm
          have hgt : d.key < k := lt_of_le_of_ne (not_lt.mp hlt) (fun hc => hk hc.symm)
          rw [removeAux.eq_def]
          simp [hgt, lt_asymm hgt, ihr hm]

theorem count_foldl : ∀ (ops : List Op) (a : AVLTree),
    (ops.foldl applyOp a).count
      = a.count + (newInserts ops a : Int) - (succRemovals ops a : Int) := by
  intro ops
  induction ops with
  | nil =>
      intro a
      simp [newInserts, succRemovals]
  | cons op ops ih =>
      intro a
      cases op with
      | insert x =>
          rw [List.foldl_cons, show applyOp a (Op.insert x) = a.insert x from rfl,
            ih (a.insert x), newInserts, succRemovals,
            show (a.insert x).count
              = if memberT a.root x.key then a.count else a.count + 1 from rfl]
          by_cases hm : memberT a.root x.key
          · rw [if_pos hm, if_pos hm]
            push_cast
            omega
          · rw [if_neg hm, if_neg hm]
            push_cast
            omega
      | remove x =>
          rw [List.foldl_cons, show applyOp a (Op.remove x) = a.remove x from rfl,
            ih (a.remove x), succRemovals, newInserts,
            show (a.remove x).count
              = if (removeAux a.root x.key).2.2 then a.count - 1 else a.count from rfl]
          by_cases hs : (removeAux a.root x.key).2.2 = true
          · rw [if_pos hs, if_pos hs]
            push_cast
            omega
          · rw [if_neg hs, if_neg hs]
            push_cast
            omega

theorem occursB_avlCheck : ∀ {t : Tree}, avlCheck t = true →
    ∀ {s : Tree}, occursB s t = true → avlCheck s = true := by
  intro t
  induction t with
  | nil =>
      intro _ s hs
      rw [occursB] at hs
      rw [beq_iff_eq] at hs
      subst hs
      rfl
  | node l d r b ihl ihr =>
      intro hc s hs
      have hc2 := hc
      simp only [avlCheck, Bool.and_eq_true] at hc2
      obtain ⟨⟨hcl, hcr⟩, _⟩ := hc2
      rw [occursB] at hs
      simp only [Bool.or_eq_true, beq_iff_eq] at hs
      rcases hs with (hs | hs) | hs
      · subst hs
        exact hc
      · exact ihl hcl hs
      · exact ihr hcr hs


/-- C1: after every finite sequence of insert and remove operations on an
initially empty tree, every node satisfies |height(left) − height(right)|
≤ 1, the balance tag of every node exactly encodes that difference, and
the in-order traversal yields a strictly increasing key sequence. -/
theorem runOps_avl_invariant (ops : List Op) :
    heightBalanced (runOps ops).root = true
    ∧ avlCheck (runOps ops).root = true
    ∧ ((runOps ops).traverse.map Entry.key).Chain' (· < ·) := by
  obtain ⟨hc, hpw, _⟩ := inv_runOps ops
  exact ⟨heightBalanced_of_avlCheck hc, hc, List.Pairwise.chain' hpw⟩

/-- C2: on a tree satisfying the representation invariant, `insert`
produces the sorted-insertion of the new element; when the key is absent
it adds the element as a new node and `size` grows by one; when the key
is present it overwrites the stored value in place (the traversal is the
old one with that single element replaced) and `size` is unchanged. -/
theorem insert_contract (a : AVLTree) (x : Entry) (hi : Inv a) :
    (a.insert x).traverse = insList x a.traverse
    ∧ (a.inTree x = false →
        (a.insert x).size = a.size + 1
        ∧ x ∈ (a.insert x).traverse
        ∧ (a.insert x).inTree x = true)
    ∧ (a.inTree x = true →
        (a.insert x).size = a.size
        ∧ (a.insert x).traverse
            = a.traverse.map (fun e => if e.key = x.key then x else e)) := by
  obtain ⟨hc, hpw, hcount⟩ := hi
  have hio : inorder (insertAux a.root x).1 = insList x (inorder a.root) :=
    inorder_insertAux x hpw
  have hpw' : (keys (insertAux a.root x).1).Pairwise (· < ·) := by
    rw [keys, hio]
    exact insList_pairwise hpw
  refine ⟨hio, fun hm => ⟨?_, ?_, ?_⟩, fun hm => ⟨?_, ?_⟩⟩
  · show (if memberT a.root x.key then a.count else a.count + 1) = a.count + 1
    have hm' : memberT a.root x.key = false := hm
    rw [if_neg (by simp [hm'])]
  · show x ∈ inorder (insertAux a.root x).1
    rw [hio]
    exact insList_self_mem
  · show memberT (insertAux a.root x).1 x.key = true
    apply (memberT_iff hpw').mpr
    rw [keys, hio]
    exact insList_self_key
  · show (if memberT a.root x.key then a.count else a.count + 1) = a.count
    have hm' : memberT a.root x.key = true := hm
    rw [if_pos hm']
  · show inorder (insertAux a.root x).1
        = (inorder a.root).map (fun e => if e.key = x.key then x else e)
    rw [hio]
    exact insList_replace hpw ((memberT_iff hpw).mp hm)

/-- C2 witness: a concrete application of `insert_contract`. -/
theorem insert_contract_witness :
    (((runOps [Op.insert ⟨2, 0⟩, Op.insert ⟨1, 0⟩]).insert ⟨3, 7⟩).size
      = (runOps [Op.insert ⟨2, 0⟩, Op.insert ⟨1, 0⟩]).size + 1)
    ∧ ((runOps [Op.insert ⟨2, 0⟩, Op.insert ⟨1, 0⟩]).insert ⟨1, 9⟩).size
      = (runOps [Op.insert ⟨2, 0⟩, Op.insert ⟨1, 0⟩]).size :=
  ⟨((insert_contract (runOps [Op.insert ⟨2, 0⟩, Op.insert ⟨1, 0⟩]) ⟨3, 7⟩
      (by decide)).2.1 (by decide)).1,
   ((insert_contract (runOps [Op.insert ⟨2, 0⟩, Op.insert ⟨1, 0⟩]) ⟨1, 9⟩
      (by decide)).2.2 (by decide)).1⟩

/-- C3: on a tree satisfying the representation invariant, a key stored
at edge-depth d has `depth` equal to d, and an absent key has
`depth = -1 - d` where d is the number of comparison steps before the
search falls off the tree (so the value is negative). -/
theorem depth_encoding (a : AVLTree) (x : Entry) (hi : Inv a) :
    (∀ d : Nat, depthOf a.root x.key = some d → a.depth x = (d : Int))
    ∧ (depthOf a.root x.key = none →
        a.depth x = -1 - (insDepth a.root x.key : Int) ∧ a.depth x < 0) := by
  obtain ⟨hc, hpw, _⟩ := hi
  constructor
  · intro d hd
    have h1 := depthAux_depthOf hpw hd 0
    rw [AVLTree.depth, h1]
    omega
  · intro hnone
    cases hm : memberT a.root x.key with
    | false =>
        have h1 := depthAux_not_mem hm 0
        rw [AVLTree.depth, h1]
        constructor
        · omega
        · omega
    | true =>
        obtain ⟨d, hd⟩ := mem_depthOf ((memberT_iff hpw).mp hm)
        rw [hd] at hnone
        exact absurd hnone (by simp)

/-- C3 witness: concrete applications of `depth_encoding`: key 2 is at
the root (depth 0), key 1 at depth 1, and absent key 9 yields -1 - 2. -/
theorem depth_encoding_witness :
    (runOps [Op.insert ⟨2, 0⟩, Op.insert ⟨1, 0⟩, Op.insert ⟨3, 0⟩]).depth ⟨2, 0⟩ = 0
    ∧ (runOps [Op.insert ⟨2, 0⟩, Op.insert ⟨1, 0⟩, Op.insert ⟨3, 0⟩]).depth ⟨1, 0⟩ = 1
    ∧ (runOps [Op.insert ⟨2, 0⟩, Op.insert ⟨1, 0⟩, Op.insert ⟨3, 0⟩]).depth ⟨9, 0⟩ = -3 := by
  refine ⟨?_, ?_, ?_⟩
  · exact (depth_encoding _ ⟨2, 0⟩ (by decide)).1 0 (by decide)
  · exact (depth_encoding _ ⟨1, 0⟩ (by decide)).1 1 (by decide)
  · have h := ((depth_encoding
      (runOps [Op.insert ⟨2, 0⟩, Op.insert ⟨1, 0⟩, Op.insert ⟨3, 0⟩]) ⟨9, 0⟩
      (by decide)).2 (by decide)).1
    rw [h]
    decide

/-- C4: `retrieve` fails with the NotFound error exactly when no node
matches the key, and on success returns a stored element carrying the
key; `remove` of an absent key is a silent no-op returning the tree
unchanged, and `inTree` reports absence through its boolean result. -/
theorem retrieve_error_contract (a : AVLTree) (x : Entry) :
    ((∃ err, a.retrieve x = .error err) ↔ a.inTree x = false)
    ∧ (a.inTree x = true →
        ∃ e, a.retrieve x = .ok e ∧ e.key = x.key ∧ e ∈ a.traverse)
    ∧ (a.inTree x = false → a.remove x = a) := by
  refine ⟨⟨fun ⟨err, herr⟩ => ?_, fun hm => ?_⟩, fun hm => ?_, fun hm => ?_⟩
  · cases hm : memberT a.root x.key with
    | false => exact hm
    | true =>
        obtain ⟨e, he1, _, _⟩ := (retrieveT_spec a.root x.key).1 hm
        rw [AVLTree.retrieve, he1] at herr
        exact Except.noConfusion herr
  · exact ⟨_, (retrieveT_spec a.root x.key).2 hm⟩
  · exact (retrieveT_spec a.root x.key).1 hm
  · have h1 := removeAux_not_mem (t := a.root) (k := x.key) hm
    cases a with
    | mk root count =>
        simp only [AVLTree.remove, h1]
        rfl

/-- C5: on a tree satisfying the representation invariant, an inserted
value is reported present by `inTree`, and after `remove` the value is
reported absent. -/
theorem insert_remove_membership (a : AVLTree) (x : Entry) (hi : Inv a) :
    (a.insert x).inTree x = true ∧ (a.remove x).inTree x = false := by
  obtain ⟨hc, hpw, _⟩ := hi
  constructor
  · have hio : inorder (insertAux a.root x).1 = insList x (inorder a.root) :=
      inorder_insertAux x hpw
    have hpw' : (keys (insertAux a.root x).1).Pairwise (· < ·) := by
      rw [keys, hio]
      exact insList_pairwise hpw
    show memberT (insertAux a.root x).1 x.key = true
    apply (memberT_iff hpw').mpr
    rw [keys, hio]
    exact insList_self_key
  · have hio : inorder (removeAux a.root x.key).1 = delList x.key (inorder a.root) :=
      inorder_removeAux hpw x.key
    have hpw' : (keys (removeAux a.root x.key).1).Pairwise (· < ·) := by
      rw [keys, hio]
      exact List.Pairwise.sublist
        (List.Sublist.map Entry.key (delList_sublist x.key (inorder a.root))) hpw
    have hnot : x.key ∉ keys (removeAux a.root x.key).1 := by
      rw [keys, hio]
      exact delList_self_not_key hpw
    show memberT (removeAux a.root x.key).1 x.key = false
    cases hmm : memberT (removeAux a.root x.key).1 x.key with
    | false => rfl
    | true => exact absurd ((memberT_iff hpw').mp hmm) hnot

/-- C5 witness: a concrete application of `insert_remove_membership`. -/
theorem insert_remove_membership_witness :
    ((runOps [Op.insert ⟨2, 0⟩, Op.insert ⟨1, 0⟩]).insert ⟨3, 0⟩).inTree ⟨3, 0⟩ = true
    ∧ ((runOps [Op.insert ⟨2, 0⟩, Op.insert ⟨1, 0⟩]).remove ⟨1, 0⟩).inTree ⟨1, 0⟩ = false :=
  ⟨(insert_remove_membership (runOps [Op.insert ⟨2, 0⟩, Op.insert ⟨1, 0⟩]) ⟨3, 0⟩
      (by decide)).1,
   (insert_remove_membership (runOps [Op.insert ⟨2, 0⟩, Op.insert ⟨1, 0⟩]) ⟨1, 0⟩
      (by decide)).2⟩

/-- C6: on a tree satisfying the representation invariant, `traverse`
lists the elements in in-order (left, self, right), which is strictly
ascending key order, and `levelTraverse` lists level 0, then level 1,
and so on, each level left to right. -/
theorem traversal_orders (a : AVLTree) (hi : Inv a) :
    a.traverse = inorder a.root
    ∧ (a.traverse.map Entry.key).Chain' (· < ·)
    ∧ a.levelTraverse = (levelsList a.root).flatten := by
  obtain ⟨_, hpw, _⟩ := hi
  exact ⟨rfl, List.Pairwise.chain' hpw, bfs_levelsList a.root⟩

/-- C6 witness: a concrete application of `traversal_orders`. -/
theorem traversal_orders_witness :
    ((runOps [Op.insert ⟨2, 0⟩, Op.insert ⟨1, 0⟩, Op.insert ⟨3, 0⟩]).traverse.map
        Entry.key).Chain' (· < ·)
    ∧ (runOps [Op.insert ⟨2, 0⟩, Op.insert ⟨1, 0⟩, Op.insert ⟨3, 0⟩]).levelTraverse
      = (levelsList (runOps [Op.insert ⟨2, 0⟩, Op.insert ⟨1, 0⟩,
          Op.insert ⟨3, 0⟩]).root).flatten :=
  ⟨(traversal_orders (runOps [Op.insert ⟨2, 0⟩, Op.insert ⟨1, 0⟩, Op.insert ⟨3, 0⟩])
      (by decide)).2.1,
   (traversal_orders (runOps [Op.insert ⟨2, 0⟩, Op.insert ⟨1, 0⟩, Op.insert ⟨3, 0⟩])
      (by decide)).2.2⟩

/-- C7 counterexample: for the sequence insert 1, remove 1, insert 1,
`size()` is 1 but the number of distinct keys ever inserted minus the
number of successful removals is 1 - 1 = 0, so the "distinct keys ever
inserted" accounting of the claim fails. -/
theorem size_accounting_counterexample :
    ¬ ((runOps [Op.insert ⟨1, 0⟩, Op.remove ⟨1, 0⟩, Op.insert ⟨1, 0⟩]).size
        = ((insertedKeys [Op.insert ⟨1, 0⟩, Op.remove ⟨1, 0⟩,
              Op.insert ⟨1, 0⟩]).dedup.length : Int)
          - (succRemovals [Op.insert ⟨1, 0⟩, Op.remove ⟨1, 0⟩, Op.insert ⟨1, 0⟩]
              AVLTree.empty : Int)) := by
  decide

/-- C7 (amended): after any operation sequence from the empty tree,
`size()` equals the length of the full in-order traversal, the internal
count equals the number of nodes reachable from the root, and `size()`
equals the number of insert operations that created a new node minus the
number of successful removals. -/
theorem size_accounting (ops : List Op) :
    (runOps ops).size = ((runOps ops).traverse.length : Int)
    ∧ (runOps ops).count = (sizeT (runOps ops).root : Int)
    ∧ (runOps ops).size
      = (newInserts ops AVLTree.empty : Int) - (succRemovals ops AVLTree.empty : Int) := by
  obtain ⟨_, _, hcount⟩ := inv_runOps ops
  refine ⟨?_, hcount, ?_⟩
  · rw [AVLTree.size, hcount, sizeT_eq_length]
    rfl
  · have h := count_foldl ops AVLTree.empty
    rw [AVLTree.size, runOps, h]
    show (0 : Int) + _ - _ = _
    omega

/-- C8: the height of a null subtree is -1, a single leaf node has height
0, `height()` reports the height of the whole tree under this convention,
and in particular the empty tree has height -1 and a one-node tree has
height 0. -/
theorem height_convention :
    heightN Tree.nil = -1
    ∧ (∀ (d : Entry) (b : BalancedFactor), heightN (Tree.node .nil d .nil b) = 0)
    ∧ (∀ a : AVLTree, a.height = heightN a.root)
    ∧ AVLTree.empty.height = -1
    ∧ (∀ (d : Entry) (b : BalancedFactor),
        (AVLTree.mk (Tree.node .nil d .nil b) 1).height = 0) := by
  refine ⟨rfl, fun d b => ?_, fun a => rfl, rfl, fun d b => ?_⟩
  · show (1 : Int) + max (heightN Tree.nil) (heightN Tree.nil) = 0
    decide
  · show (1 : Int) + max (heightN Tree.nil) (heightN Tree.nil) = 0
    decide

/-- C9: in every tree reachable by an operation sequence, every reachable
node's balance tag is the exact encoding of height(left) − height(right):
LeftHeavy stands for +1, Balanced for 0, RightHeavy for −1. -/
theorem balance_tag_encoding (ops : List Op) (l r : Tree) (d : Entry)
    (b : BalancedFactor)
    (hocc : occursB (Tree.node l d r b) (runOps ops).root = true) :
    (b = .LH ↔ heightN l - heightN r = 1)
    ∧ (b = .EH ↔ heightN l - heightN r = 0)
    ∧ (b = .RH ↔ heightN l - heightN r = -1) := by
  obtain ⟨hc, _, _⟩ := inv_runOps ops
  have hsub := occursB_avlCheck hc hocc
  simp only [avlCheck, Bool.and_eq_true, Bool.or_eq_true, beq_iff_eq] at hsub
  obtain ⟨_, htag⟩ := hsub
  rcases htag with (⟨hb, he⟩ | ⟨hb, he⟩) | ⟨hb, he⟩ <;> subst hb
  · exact ⟨iff_of_true rfl (by omega), iff_of_false (by simp) (by omega),
      iff_of_false (by simp) (by omega)⟩
  · exact ⟨iff_of_false (by simp) (by omega), iff_of_true rfl (by omega),
      iff_of_false (by simp) (by omega)⟩
  · exact ⟨iff_of_false (by simp) (by omega), iff_of_false (by simp) (by omega),
      iff_of_true rfl (by omega)⟩

/-- C9 witness: a concrete application of `balance_tag_encoding` at the
leaf node reached by one insertion. -/
theorem balance_tag_encoding_witness :
    (BalancedFactor.EH = .LH ↔ heightN Tree.nil - heightN Tree.nil = 1)
    ∧ (BalancedFactor.EH = .EH ↔ heightN Tree.nil - heightN Tree.nil = 0)
    ∧ (BalancedFactor.EH = .RH ↔ heightN Tree.nil - heightN Tree.nil = -1) :=
  balance_tag_encoding [Op.insert ⟨1, 1⟩] Tree.nil Tree.nil ⟨1, 1⟩ .EH (by decide)

/-- C10: an exception constructed with a detail message returns exactly
that message from `what()`, and an exception carries nothing besides its
message. -/
theorem exception_what (s : String) :
    (AVLTreeException.mk s).what = s
    ∧ ∀ e : AVLTreeException, e = AVLTreeException.mk e.what :=
  ⟨rfl, fun _ => rfl⟩


end BSTvAVL
